import Mathlib

/-!
A verification development for the readability.rs content-extraction engine
(src/lib.rs).  The Rust code is shallowly embedded: the document tree becomes
an inductive type with explicit node identifiers, the node-identity cache
becomes a total function from identifiers to NodeInfo records (an absent
record behaves as the all-zero record, exactly as in the source), and the
pre-order / post-order traversal of Readability::readify becomes a pair of
mutually recursive functions.  f32 scores are modelled by exact fractions
(Frac, an integer numerator over a positive integer denominator, with the
rational value made explicit by Frac.toRat); this is exact for every
constant in the source (integer raw scores, divisors 1/2/6, class weights
of 25, threshold 3/4) and abstracts only the rounding of f32 division,
which no claim depends on.  Rust u32 counters are modelled by Nat (document
statistics never approach 2 to the 32nd in any scenario considered, and no
claim concerns wrap-around).
-/

namespace Readability

/-- Whitespace predicate used throughout (Rust char::is_whitespace as used on
the texts considered; the development only ever uses this single predicate,
mirroring how the source uses char::is_whitespace both for str::trim and for
the explicit checks in count_chars). -/
def isWS (c : Char) : Bool := c.isWhitespace

/-- str::trim on a list of characters: drop whitespace from both ends. -/
def trimList (l : List Char) : List Char :=
  ((l.dropWhile isWS).reverse.dropWhile isWS).reverse

/-- str::trim on a string. -/
def trimStr (s : String) : String := String.mk (trimList s.toList)

/-- str::trim(..).is_empty() -/
def trimEmpty (s : String) : Bool := trimList s.toList |>.isEmpty

/-- Lower-casing for the case-insensitive regex matches. -/
def lowerList (l : List Char) : List Char := l.map Char.toLower

/-- Substring test on character lists (needle occurs contiguously in hay). -/
def subList : List Char → List Char → Bool
  | _, [] => true
  | [], _ :: _ => false
  | c :: cs, needle => needle.isPrefixOf (c :: cs) || subList cs needle

/-- Case-insensitive substring test on strings (a Perl-style (?i) literal
alternation branch reduces to this). -/
def containsCI (hay needle : String) : Bool :=
  subList (lowerList hay.toList) (lowerList needle.toList)

/-- Matching of a regex that is a plain alternation of literals, (?i). -/
def matchesAnyCI (hay : String) (needles : List String) : Bool :=
  needles.any (containsCI hay)

/-- count_chars from src/lib.rs, lines 239-262, with the panic made explicit:
the loop body calls iter.peek().unwrap() after reading a whitespace
character, and we return none exactly where the Rust code would panic.
State: remaining characters, accumulated char count, accumulated comma
count. -/
def countCharsGo : List Char → Nat → Nat → Option (Nat × Nat)
  | [], charCnt, commaCnt => some (charCnt, commaCnt)
  | c :: rest, charCnt, commaCnt =>
    if isWS c then
      match rest.head? with
      | none => none
      | some c2 =>
        if isWS c2 then countCharsGo rest charCnt commaCnt
        else countCharsGo rest (charCnt + 1) commaCnt
    else if c = ',' then
      if rest.head?.all (fun c2 => c2 ≠ ',') then
        countCharsGo rest (charCnt + 1) (commaCnt + 1)
      else countCharsGo rest charCnt commaCnt
    else countCharsGo rest (charCnt + 1) commaCnt

/-- count_chars, partiality made explicit through Option. -/
def countCharsOpt (s : String) : Option (Nat × Nat) :=
  countCharsGo (trimList s.toList) 0 0

/-- Total wrapper used by the walk; the totality theorem for claim C10 shows
the default branch is never taken. -/
def countChars (s : String) : Nat × Nat := (countCharsOpt s).getD (0, 0)

/-- In any list whose last element is not whitespace, the look-ahead in
countCharsGo always finds a character after a whitespace character. -/
theorem countCharsGo_total (l : List Char)
    (h : ∀ c, l.getLast? = some c → isWS c = false) :
    ∀ a b, (countCharsGo l a b).isSome := by
  induction l with
  | nil => intro a b; simp [countCharsGo]
  | cons c rest ih =>
    intro a b
    have hrest : ∀ c2, rest.getLast? = some c2 → isWS c2 = false := by
      intro c2 hc2
      apply h
      cases rest with
      | nil => simp at hc2
      | cons d ds => simpa [List.getLast?_cons_cons] using hc2
    have ih' := ih hrest
    rw [countCharsGo]
    by_cases hws : isWS c
    · cases rest with
      | nil =>
        exfalso
        have hlast := h c (by simp)
        rw [hws] at hlast
        exact absurd hlast (by simp)
      | cons c2 cs =>
        simp only [hws, if_true, List.head?_cons]
        by_cases h2 : isWS c2
        · simp only [h2, if_true]; exact ih' a b
        · simp only [h2, if_false, Bool.false_eq_true, ite_false]
          exact ih' (a + 1) b
    · simp only [hws, Bool.false_eq_true, if_false, ite_false]
      by_cases hc : c = ','
      · simp only [hc, if_true, ite_true]
        by_cases hall : (rest.head?.all fun c2 => c2 ≠ ',') = true
        · simp only [hall, if_true]; exact ih' (a + 1) (b + 1)
        · simp only [Bool.not_eq_true] at hall
          simp only [hall, Bool.false_eq_true, if_false, ite_false]
          exact ih' a b
      · simp only [hc, ite_false, if_false]
        exact ih' (a + 1) b

/-- The last element of a trimmed character list is never whitespace. -/
theorem trimList_getLast_not_ws (l : List Char) :
    ∀ c, (trimList l).getLast? = some c → isWS c = false := by
  intro c hc
  unfold trimList at hc
  rw [List.getLast?_reverse] at hc
  have hmem : c ∈ ((l.dropWhile isWS).reverse.dropWhile isWS) :=
    List.mem_of_mem_head? hc
  have hhead := List.head?_dropWhile_not isWS (l.dropWhile isWS).reverse
  rw [hc] at hhead
  simpa using hhead

/-- C10: count_chars is total on every input string.  The look-ahead unwrap
after a whitespace character never fires on a missing peek, because the
function iterates over the trimmed text and a whitespace character is never
last there. -/
theorem count_chars_total (s : String) : (countCharsOpt s).isSome :=
  countCharsGo_total (trimList s.toList) (trimList_getLast_not_ws s.toList) 0 0

/-! ## The document tree

Nodes are the kuchikiki node variants used by the engine, with an explicit
identifier standing for node identity (address).  Only elements have
children; inside a parsed body subtree every interior node is an element, so
this loses nothing the walk can observe. -/

inductive Node where
  | elem (id : Nat) (tag : String) (attrs : List (String × String))
      (children : List Node)
  | text (id : Nat) (s : String)
  | comment (id : Nat)
  | fragment (id : Nat)
  | doctype (id : Nat)
deriving Repr

/-- The node identifier (address identity). -/
def Node.nid : Node → Nat
  | .elem i _ _ _ => i
  | .text i _ => i
  | .comment i => i
  | .fragment i => i
  | .doctype i => i

/-- The local tag name of an element, or the empty string for non-elements
(so that NodeRefExt::is on a non-element is false, as in the source). -/
def Node.tagOf : Node → String
  | .elem _ t _ _ => t
  | _ => ""

def Node.isElem : Node → Bool
  | .elem _ _ _ _ => true
  | _ => false

def Node.attrsOf : Node → List (String × String)
  | .elem _ _ a _ => a
  | _ => []

def Node.childrenOf : Node → List Node
  | .elem _ _ _ cs => cs
  | _ => []

/-- Attribute lookup by local name (kuchikiki attribute maps have unique
keys). -/
def getAttr (attrs : List (String × String)) (name : String) : Option String :=
  (attrs.find? (fun p => p.1 == name)).map (fun p => p.2)

mutual
/-- Concatenated text of all descendant text nodes (NodeRef::text_contents). -/
def textContents : Node → String
  | .text _ s => s
  | .elem _ _ _ cs => textContentsL cs
  | _ => ""
def textContentsL : List Node → String
  | [] => ""
  | c :: cs => textContents c ++ textContentsL cs
end

/-! ## The regex literals (src/lib.rs lines 88-118)

Every one of these case-insensitive patterns is an alternation of plain
literals, except for the hid alternatives of NEGATIVE (anchors and
whitespace classes, handled separately) and PROTOCOL (handled separately).
A Perl-style literal alternation matches exactly when some branch occurs as
a substring. -/

def unlikelyLits : List String :=
  ["-ad-", "ai2html", "banner", "breadcrumbs", "combx", "comment",
   "community", "cover-wrap", "disqus", "extra", "footer", "gdpr", "header",
   "legends", "menu", "modal", "related", "remark", "replies", "rss",
   "shoutbox", "sidebar", "skyscraper", "social", "sponsor", "supplemental",
   "ad-break", "agegate", "pagination", "pager", "popup", "yom-remote"]

def maybeLits : List String :=
  ["and", "article", "body", "column", "main", "shadow"]

def positiveLits : List String :=
  ["article", "body", "content", "entry", "hentry", "h-entry", "main",
   "page", "pagination", "post", "text", "blog", "story"]

def negativeLits : List String :=
  ["-ad-", "hidden", "banner", "combx", "comment", "com-", "contact",
   "foot", "footer", "footnote", "gdpr", "masthead", "media", "meta",
   "modal", "outbrain", "promo", "related", "scroll", "share", "shoutbox",
   "sidebar", "skyscraper", "sponsor", "shopping", "tags", "tool", "widget"]

def videoLits : List String :=
  ["//dailymotion.com", "//www.dailymotion.com",
   "//youtube.com", "//www.youtube.com",
   "//youtube-nocookie.com", "//www.youtube-nocookie.com",
   "//player.vimeo.com", "//www.player.vimeo.com"]

/-- Does any suffix of the list satisfy the predicate. -/
def anyTail (p : List Char → Bool) : List Char → Bool
  | [] => p []
  | c :: cs => p (c :: cs) || anyTail p cs

/-- The four hid branches of NEGATIVE. -/
def hidMatch (s : String) : Bool :=
  let l := lowerList s.toList
  let hid : List Char := ['h', 'i', 'd']
  decide (l = hid) ||
  (hid.isPrefixOf l && (l.drop 3).head?.any isWS) ||
  (hid.reverse.isPrefixOf l.reverse && (l.reverse.drop 3).head?.any isWS) ||
  anyTail (fun t =>
    match t with
    | a :: b :: c :: d :: e :: _ =>
      isWS a && b = 'h' && c = 'i' && d = 'd' && isWS e
    | _ => false) l

def unlikelyMatch (s : String) : Bool := matchesAnyCI s unlikelyLits
def maybeMatch (s : String) : Bool := matchesAnyCI s maybeLits
def positiveMatch (s : String) : Bool := matchesAnyCI s positiveLits
def negativeMatch (s : String) : Bool := matchesAnyCI s negativeLits || hidMatch s
def videoMatch (s : String) : Bool := matchesAnyCI s videoLits

/-- Word character for the PROTOCOL pattern (regex word class, restricted to
its ASCII fragment, which covers every scheme name). -/
def isWordChar (c : Char) : Bool := c.isAlphanum || c = '_'

/-- PROTOCOL from the source: a nonempty run of word characters followed by
a colon, at the start of the string. -/
def protocolMatch (s : String) : Bool :=
  let l := s.toList
  let w := l.takeWhile isWordChar
  !w.isEmpty && (l.drop w.length).head? == some ':'

/-! ## Exact fractions

Scores are f32 in the source.  Every score the engine builds is an exact
fraction of machine integers, so we model them as unnormalized fractions
with a positive denominator; all operations are plain integer arithmetic.
Frac.toRat gives the rational value; order and equality are value order and
value equality via cross multiplication. -/

structure Frac where
  num : Int
  den : Int
  dpos : 0 < den

instance (n : Nat) : OfNat Frac n := ⟨⟨n, 1, Int.zero_lt_one⟩⟩

def Frac.ofNat (n : Nat) : Frac := ⟨n, 1, Int.zero_lt_one⟩

instance : Neg Frac := ⟨fun x => ⟨-x.num, x.den, x.dpos⟩⟩

instance : Add Frac :=
  ⟨fun x y => ⟨x.num * y.den + y.num * x.den, x.den * y.den,
    mul_pos x.dpos y.dpos⟩⟩

instance : Sub Frac := ⟨fun x y => x + -y⟩

instance : Mul Frac :=
  ⟨fun x y => ⟨x.num * y.num, x.den * y.den, mul_pos x.dpos y.dpos⟩⟩

/-- Division; a zero divisor yields zero (unreachable in the engine: every
divisor in the source is a nonzero constant or a checked counter). -/
instance : Div Frac :=
  ⟨fun x y =>
    if h : y.num = 0 then ⟨0, 1, Int.zero_lt_one⟩
    else if hn : 0 < y.num then
      ⟨x.num * y.den, x.den * y.num, mul_pos x.dpos hn⟩
    else
      ⟨-(x.num * y.den), x.den * -y.num, mul_pos x.dpos (by omega)⟩⟩

instance : LT Frac := ⟨fun x y => x.num * y.den < y.num * x.den⟩

instance : LE Frac := ⟨fun x y => x.num * y.den ≤ y.num * x.den⟩

instance (x y : Frac) : Decidable (x < y) :=
  inferInstanceAs (Decidable (x.num * y.den < y.num * x.den))

instance (x y : Frac) : Decidable (x ≤ y) :=
  inferInstanceAs (Decidable (x.num * y.den ≤ y.num * x.den))

instance : DecidableEq Frac := fun a b =>
  decidable_of_iff (a.num = b.num ∧ a.den = b.den) (by
    cases a; cases b; simp)

instance : Repr Frac := ⟨fun x _ => repr (x.num, x.den)⟩

/-- The rational value of a fraction. -/
def Frac.toRat (x : Frac) : ℚ := (x.num : ℚ) / (x.den : ℚ)

/-! ## Per-node statistics and engine configuration -/

/-- NodeInfo from src/lib.rs lines 387-404.  content_score is the f32
accumulator, modelled by a rational; counters are the u32 fields. -/
structure NodeInfo where
  content_score : Frac := 0
  text_len : Nat := 0
  link_len : Nat := 0
  commas : Nat := 0
  is_candidate : Bool := false
  is_shabby : Bool := false
  p_count : Nat := 0
  img_count : Nat := 0
  li_count : Nat := 0
  input_count : Nat := 0
  embed_count : Nat := 0
  iframe_count : Nat := 0
  br_count : Nat := 0
  hr_count : Nat := 0
deriving Repr, DecidableEq

/-- The all-zero record: what the node cache yields on first access. -/
def NodeInfo.zero : NodeInfo := {}

/-- Engine configuration (the four booleans plus the optional base URL).
URL parsing and joining are external collaborators, so a configured base URL
is modelled as the join function it induces: given the raw attribute value
it returns the resolved URL, or none when resolution fails (Url::join
returning Err). -/
structure Config where
  strip_unlikelys : Bool := true
  weight_classes : Bool := true
  clean_conditionally : Bool := true
  clean_attributes : Bool := true
  base_url : Option (String → Option String) := none

/-! ## Pure helpers over the tree (src/lib.rs lines 137-385) -/

/-- extract_byline, lines 137-162: an element with rel equal to author whose
trimmed text content has a UTF-8 byte length strictly between 0 and 100
yields that trimmed text.  (The class and id byline patterns are commented
out in the source.) -/
def extractByline (n : Node) : Option String :=
  match n with
  | .elem _ _ attrs _ =>
    let rel := (getAttr attrs "rel").getD ""
    if rel == "author" then
      let byline := trimStr (textContents n)
      if 0 < byline.utf8ByteSize && byline.utf8ByteSize < 100 then
        some byline
      else none
    else none
  | _ => none

/-- is_unlikely_candidate, lines 164-178. -/
def isUnlikelyCandidate (n : Node) : Bool :=
  match n with
  | .elem _ tag attrs _ =>
    if tag == "a" || tag == "body" then false
    else
      let classes := (getAttr attrs "class").getD ""
      let id := (getAttr attrs "id").getD ""
      (unlikelyMatch classes || unlikelyMatch id) &&
        !(maybeMatch classes || maybeMatch id)
  | _ => false

/-- has_single_p, lines 211-227: exactly one element child, that child is a
p, and every text child is whitespace-only. -/
def hasSingleP (cs : List Node) : Bool :=
  match cs.filter Node.isElem with
  | [c] =>
    c.tagOf == "p" &&
      cs.all (fun n =>
        match n with
        | .text _ s => trimEmpty s
        | _ => true)
  | _ => false

def blockTags : List String :=
  ["a", "blockquote", "dl", "div", "img", "ol", "p", "pre", "table", "ul",
   "select"]

mutual
/-- Is this node, or any of its descendants, a block element.  In
has_block_elem the source iterates descendants of the div, which excludes
the div itself. -/
def isOrHasBlock : Node → Bool
  | .elem _ t _ cs => blockTags.contains t || hasBlockIn cs
  | _ => false
def hasBlockIn : List Node → Bool
  | [] => false
  | c :: cs => isOrHasBlock c || hasBlockIn cs
end

/-- has_block_elem, lines 229-237 (over the children of the node). -/
def hasBlockElem (cs : List Node) : Bool := hasBlockIn cs

/-- is_tag_to_score, lines 264-270. -/
def isTagToScore (t : String) : Bool :=
  ["section", "p", "td", "pre", "h2", "h3", "h4", "h5", "h6"].contains t

/-- tag_score, lines 272-285. -/
def tagScore (t : String) : Frac :=
  if t == "section" then 15
  else if t == "div" then 5
  else if ["pre", "td", "blockquote"].contains t then 3
  else if ["address", "form"].contains t then -3
  else if ["dl", "dt", "dd"].contains t then -3
  else if ["li", "ol", "ul"].contains t then -3
  else if t == "body" then -5
  else if ["h1", "h2", "h3", "h4", "h5", "h6"].contains t then -5
  else if t == "th" then -5
  else 0

/-- class_score, lines 287-310: plus or minus 25 per positive or negative
match of the class attribute, and again of the id attribute. -/
def classScoreOf (attrs : List (String × String)) : Frac :=
  let one (v : Option String) : Frac :=
    match v with
    | none => 0
    | some s =>
      (if positiveMatch s then 25 else 0) + (if negativeMatch s then -25 else 0)
  one (getAttr attrs "class") + one (getAttr attrs "id")

/-- is_stuffed, lines 312-352. -/
def isStuffed (n : Node) (info : NodeInfo) : Bool :=
  match n with
  | .elem _ tag _ cs =>
    if ["h1", "footer", "button"].contains tag then false
    else if ["div", "section", "header", "h2", "h3", "h4", "h5",
             "h6"].contains tag then
      if info.text_len == 0 then
        let childrenCount := cs.length
        !(childrenCount == 0 || childrenCount == info.br_count + info.hr_count)
      else true
    else if ["thead", "tbody", "th", "tr", "td"].contains tag then
      decide (0 < info.text_len) ||
        decide (0 < info.img_count + info.embed_count + info.iframe_count)
    else if ["p", "pre", "blockquote"].contains tag then
      decide (0 < info.img_count + info.embed_count + info.iframe_count) ||
        !trimEmpty (textContents n)
    else true
  | _ => true

/-- clean_attributes, lines 354-357: drop the style attribute. -/
def cleanAttrs (attrs : List (String × String)) : List (String × String) :=
  attrs.filter (fun p => p.1 ≠ "style")

/-- The inner fix of fix_relative_urls, lines 360-369: empty values, hash
links and absolute URLs are untouched; anything else is resolved against
the base, and left alone when resolution fails. -/
def fixUrl (join : String → Option String) (url : String) : String :=
  if url.isEmpty || protocolMatch url || url.toList.head? == some '#' then
    url
  else
    match join url with
    | some resolved => resolved
    | none => url

/-- fix_relative_urls, lines 359-378: both the href and the src attribute
are fixed when present. -/
def fixRelativeUrls (join : String → Option String)
    (attrs : List (String × String)) : List (String × String) :=
  attrs.map (fun p =>
    if p.1 == "href" || p.1 == "src" then (p.1, fixUrl join p.2) else p)

/-- is_acceptable_top_level, lines 380-385. -/
def isAcceptableTopLevel (t : String) : Bool :=
  ["div", "article", "section", "p"].contains t

/-! ## Conditional acceptability (src/lib.rs lines 773-808)

link_density and the p to img quotient are f32 divisions of u32 counters.
A zero denominator yields NaN (for a zero numerator) or infinity, and every
comparison against a finite threshold is false on NaN while infinity
exceeds every finite threshold.  FDiv captures exactly these three cases;
finite quotients are exact rationals. -/

inductive FDiv where
  | nan
  | inf
  | val (q : Frac)

/-- f32 division of two counters. -/
def fdiv (num den : Nat) : FDiv :=
  if h : den = 0 then (if num = 0 then .nan else .inf)
  else .val ⟨num, den, by omega⟩

/-- quotient strictly greater than a finite threshold. -/
def FDiv.fgt : FDiv → Frac → Bool
  | .nan, _ => false
  | .inf, _ => true
  | .val q, t => decide (t < q)

/-- quotient strictly below a finite threshold. -/
def FDiv.flt : FDiv → Frac → Bool
  | .nan, _ => false
  | .inf, _ => false
  | .val q, t => decide (q < t)

/-- is_conditionally_acceptable, lines 773-808. -/
def isCondAcceptable (weightClasses : Bool) (n : Node) (info : NodeInfo) :
    Bool :=
  match n with
  | .elem _ tag attrs _ =>
    let isListT : Option Bool :=
      if ["form", "fieldset", "table", "div"].contains tag then some false
      else if ["ul", "ol"].contains tag then some true
      else none
    match isListT with
    | none => true
    | some isList =>
      let classScore : Frac := if weightClasses then classScoreOf attrs else 0
      if classScore < 0 then false
      else if 10 ≤ info.commas then true
      else
        let linkDensity := fdiv info.link_len info.text_len
        let pImgQuot := fdiv info.p_count info.img_count
        !((decide (1 < info.img_count) && pImgQuot.flt (1/2)) ||
          (!isList && decide (info.p_count + 100 < info.li_count)) ||
          (decide (info.p_count < info.input_count * 3)) ||
          (!isList && decide (info.text_len < 25) &&
            (decide (info.img_count = 0) || decide (2 < info.img_count))) ||
          (!isList && decide (classScore < 25) && linkDensity.fgt (1/5)) ||
          (decide (25 ≤ classScore) && linkDensity.fgt (1/2)) ||
          ((decide (info.embed_count = 1) && decide (info.text_len < 75)) ||
            decide (1 < info.embed_count)))
  | _ => true

/-! ## The walk state

The node cache is a total function from identifiers to records (an absent
record is the zero record); candidates snapshot the element reference
(identifier, tag, attributes - tags and candidate-relevant attributes are
never mutated in place after registration); removedT collects subtrees
detached during bubbling, since a detached candidate is still reachable
through the candidate list; fresh supplies identities for nodes the engine
allocates (renames and wrappers). -/

structure Cand where
  cid : Nat
  ctag : String
  cattrs : List (String × String)
deriving Repr, DecidableEq

structure RState where
  info : Nat → NodeInfo
  candidates : List Cand
  byline : Option String
  removedT : List Node
  fresh : Nat

def RState.getInfo (st : RState) (i : Nat) : NodeInfo := st.info i

def RState.setInfo (st : RState) (i : Nat) (v : NodeInfo) : RState :=
  { st with info := fun j => if j = i then v else st.info j }

def RState.updInfo (st : RState) (i : Nat) (f : NodeInfo → NodeInfo) :
    RState :=
  st.setInfo i (f (st.getInfo i))

/-- An ancestor on the current walk path: identifier, tag and attributes of
an element strictly above the current node, nearest first.  Every ancestor
inside the walked subtree is an element, matching ancestors().elements(). -/
structure PathE where
  pid : Nat
  ptag : String
  pattrs : List (String × String)
deriving Repr

/-! ## Bubbling (src/lib.rs lines 646-862) -/

/-- The per-tag counter bump of propagate_info, lines 735-752: the parent
record counts the child itself by tag before absorbing its subtotals. -/
def tagBump (n : Node) (pi0 : NodeInfo) : NodeInfo :=
  match n with
  | .elem _ t attrs _ =>
    if t == "p" then { pi0 with p_count := pi0.p_count + 1 }
    else if t == "img" then { pi0 with img_count := pi0.img_count + 1 }
    else if t == "li" then { pi0 with li_count := pi0.li_count + 1 }
    else if t == "input" then
      { pi0 with input_count := pi0.input_count + 1 }
    else if t == "br" then { pi0 with br_count := pi0.br_count + 1 }
    else if t == "hr" then { pi0 with hr_count := pi0.hr_count + 1 }
    else if t == "iframe" then
      { pi0 with iframe_count := pi0.iframe_count + 1 }
    else if t == "embed" then
      let src := (getAttr attrs "src").getD ""
      if videoMatch src then pi0
      else { pi0 with embed_count := pi0.embed_count + 1 }
    else pi0
  | _ => pi0

/-- propagate_info, lines 727-771. -/
def propagateInfo (st : RState) (n : Node) (path : List PathE) : RState :=
  match path with
  | [] => st
  | parent :: _ =>
    let isA := n.tagOf == "a"
    let info := st.getInfo n.nid
    let pi0 := st.getInfo parent.pid
    let pi1 := tagBump n pi0
    let pi2 :=
      { pi1 with
        link_len := pi1.link_len + (if isA then info.text_len else info.link_len),
        text_len := pi1.text_len + info.text_len,
        commas := pi1.commas + info.commas,
        p_count := pi1.p_count + info.p_count,
        img_count := pi1.img_count + info.img_count,
        li_count := pi1.li_count + info.li_count,
        input_count := pi1.input_count + info.input_count,
        embed_count := pi1.embed_count + info.embed_count,
        iframe_count := pi1.iframe_count + info.iframe_count,
        br_count := pi1.br_count + info.br_count,
        hr_count := pi1.hr_count + info.hr_count }
    st.setInfo parent.pid pi2

/-- calculate_content_score, lines 816-841: requires an element parent and
at least 25 characters of text; the raw score is one point, plus the
commas, plus one point per 100 characters of text and link text capped at
three. -/
def calculateContentScore (st : RState) (n : Node) (path : List PathE) :
    Option Frac :=
  match path with
  | [] => none
  | _ :: _ =>
    let info := st.getInfo n.nid
    if info.text_len < 25 then none
    else
      let totalLen := info.text_len + info.link_len
      some (Frac.ofNat (1 + info.commas + min (totalLen / 100) 3))

/-- One level of propagate_score, lines 844-861: add the quotient of the
score by the level divisor to the ancestor, and register the ancestor as a
candidate when it is not yet flagged. -/
def propagateStep (contentScore : Frac) (st : RState) (lvlAnc : Nat × PathE) :
    RState :=
  let lvl := lvlAnc.1
  let anc := lvlAnc.2
  let divisor : Frac := if lvl = 0 then 1 else if lvl = 1 then 2
    else 3 * Frac.ofNat lvl
  let addition := contentScore / divisor
  let i := st.getInfo anc.pid
  if i.is_candidate then
    st.setInfo anc.pid { i with content_score := i.content_score + addition }
  else
    { st.setInfo anc.pid
        { i with content_score := i.content_score + addition,
                 is_candidate := true } with
      candidates := st.candidates ++ [⟨anc.pid, anc.ptag, anc.pattrs⟩] }

/-- propagate_score, lines 843-862: distribute to the first three element
ancestors with divisors 1, 2 and 3 times the level; register each ancestor
as a candidate exactly once. -/
def propagateScore (st : RState) (path : List PathE) (contentScore : Frac) :
    RState :=
  ((path.take 3).enum).foldl (propagateStep contentScore) st

/-- The text-node arm of on_bubbling, lines 649-657: count the characters
and commas of the text and add them to the parent record.  (For a parentless
text node the source would unwrap a missing parent; readify is only ever
applied to an element, so a text node always has a parent on the walk.) -/
def bubbleText (st : RState) (path : List PathE) (s : String) : RState :=
  match path with
  | [] => st
  | parent :: _ =>
    let counted := countChars s
    st.updInfo parent.pid (fun i =>
      { i with text_len := i.text_len + counted.1,
               commas := i.commas + counted.2 })

/-- score_node, lines 810-814. -/
def scoreNode (st : RState) (n : Node) (path : List PathE) : RState :=
  match calculateContentScore st n path with
  | some contentScore => propagateScore st path contentScore
  | none => st

/-- The element arm of on_bubbling, lines 658-722, for a node whose subtree
has already been processed.  Returns none when the node removes itself
(not stuffed, or conditionally unacceptable); the removal of a br before a
p is handled by the sibling fold of the caller. -/
def bubbleElement (cfg : Config) (st : RState) (path : List PathE)
    (n : Node) : RState × Option Node :=
  let st := propagateInfo st n path
  let st := if isTagToScore n.tagOf then scoreNode st n path else st
  let info := st.getInfo n.nid
  if !isStuffed n info then (st, none)
  else if cfg.clean_conditionally && !isCondAcceptable cfg.weight_classes n info
  then
    let st := st.updInfo n.nid (fun i => { i with is_candidate := false })
    let st :=
      match path with
      | [] => st
      | parent :: _ =>
        st.updInfo parent.pid (fun i => { i with is_shabby := true })
    (st, none)
  else
    let attrs := n.attrsOf
    let attrs := if cfg.clean_attributes then cleanAttrs attrs else attrs
    let attrs :=
      match cfg.base_url with
      | some join =>
        if n.tagOf == "a" || n.tagOf == "img" then fixRelativeUrls join attrs
        else attrs
      | none => attrs
    (st, some (Node.elem n.nid n.tagOf attrs n.childrenOf))

/-! ## Capturing (src/lib.rs lines 588-644) -/

/-- The wrap arm of transform_div, lines 193-207: every text child with
non-whitespace content is moved into a freshly allocated p element. -/
def wrapTexts (fresh : Nat) : List Node → Nat × List Node
  | [] => (fresh, [])
  | c :: cs =>
    match c with
    | .text i s =>
      if trimEmpty s then
        let r := wrapTexts fresh cs
        (r.1, .text i s :: r.2)
      else
        let r := wrapTexts (fresh + 1) cs
        (r.1, .elem fresh "p" [] [.text i s] :: r.2)
    | c =>
      let r := wrapTexts fresh cs
      (r.1, c :: r.2)

/-- transform_div, lines 180-209, on a kept div child: collapse to a single
inner p, rename to p when no block descendant exists, or wrap loose text
children in p elements. -/
def transformDiv (fresh : Nat) (n : Node) : Nat × List Node :=
  let cs := n.childrenOf
  if hasSingleP cs then
    (fresh, (cs.filter Node.isElem).take 1)
  else if !hasBlockElem cs then
    (fresh + 1, [Node.elem fresh "p" n.attrsOf cs])
  else
    let r := wrapTexts fresh cs
    (r.1, [Node.elem n.nid n.tagOf n.attrsOf r.2])

/-- One child of on_capturing, lines 594-643.  The useless-element removal
comes first; the byline branch still fires for a removed element child
(the source re-examines the child after detaching it), which only matters
for its side effect on the captured byline.  The transforms of a detached
child mutate a dropped subtree and are therefore omitted.  Comments and
fragments are always removed, whitespace-only texts are removed, doctype
children fall through every rule and stay. -/
def captureChild (cfg : Config) (st : RState) : Node → RState × List Node
  | .comment _ => (st, [])
  | .fragment _ => (st, [])
  | .doctype i => (st, [.doctype i])
  | .text i s => if trimEmpty s then (st, []) else (st, [.text i s])
  | .elem i t a cs =>
    match extractByline (.elem i t a cs) with
    | some byline => ({ st with byline := some byline }, [])
    | none =>
      if ["script", "style", "noscript"].contains t then (st, [])
      else if cfg.strip_unlikelys && isUnlikelyCandidate (.elem i t a cs) then
        (st, [])
      else if t == "div" then
        let r := transformDiv st.fresh (.elem i t a cs)
        ({ st with fresh := r.1 }, r.2)
      else if t == "font" then
        ({ st with fresh := st.fresh + 1 }, [Node.elem st.fresh "span" a cs])
      else (st, [.elem i t a cs])

/-- on_capturing over the snapshot of the children, lines 594-643. -/
def captureChildren (cfg : Config) (st : RState) :
    List Node → RState × List Node
  | [] => (st, [])
  | c :: cs =>
    let r1 := captureChild cfg st c
    let r2 := captureChildren cfg r1.1 cs
    (r2.1, r1.2 ++ r2.2)

/-- Remove the nearest preceding sibling element when it is a br (the
previous_element of a just-bubbled p, lines 702-709), inside the list of
already processed preceding siblings. -/
def removePrecedingBr (acc : List Node) : List Node :=
  (go acc.reverse).reverse
where
  go : List Node → List Node
    | [] => []
    | n :: rest =>
      if n.isElem then (if n.tagOf == "br" then rest else n :: rest)
      else n :: go rest

/-! ## A termination measure for the traversal

Capturing may wrap a loose text child of a div in a fresh p element, so the
plain subtree size can grow by one wrapper per such text.  Charging two
extra units for every non-whitespace text child of a div makes the capture
stage non-increasing, which bounds the traversal. -/

def isBareText : Node → Bool
  | .text _ s => !trimEmpty s
  | _ => false

def bareTexts : List Node → Nat
  | [] => 0
  | c :: cs => (if isBareText c then 1 else 0) + bareTexts cs

mutual
def pw : Node → Nat
  | .elem _ t _ cs => 1 + pwl cs + (if t = "div" then 2 * bareTexts cs else 0)
  | _ => 1
def pwl : List Node → Nat
  | [] => 0
  | c :: cs => pw c + pwl cs
end

theorem pw_pos (n : Node) : 1 ≤ pw n := by
  cases n with
  | elem i t a cs => simp only [pw]; omega
  | text i s => simp [pw]
  | comment i => simp [pw]
  | fragment i => simp [pw]
  | doctype i => simp [pw]

theorem pwl_append (l₁ l₂ : List Node) :
    pwl (l₁ ++ l₂) = pwl l₁ + pwl l₂ := by
  induction l₁ with
  | nil => simp [pwl]
  | cons c cs ih => simp [pwl, ih]; ring

theorem pwl_sublist_le {l₁ l₂ : List Node} (h : l₁.Sublist l₂) :
    pwl l₁ ≤ pwl l₂ := by
  induction h with
  | slnil => exact le_refl _
  | cons a _ ih => simp only [pwl]; omega
  | cons₂ a _ ih => simp only [pwl]; omega

theorem wrapTexts_pwl (f : Nat) (cs : List Node) :
    pwl (wrapTexts f cs).2 = pwl cs + bareTexts cs ∧
      bareTexts (wrapTexts f cs).2 = 0 := by
  induction cs generalizing f with
  | nil => simp [wrapTexts, pwl, bareTexts]
  | cons c cs ih =>
    cases c with
    | text i s =>
      by_cases hws : trimEmpty s
      · have h := ih f
        simp [wrapTexts, hws, pwl, bareTexts, isBareText, pw, h.1, h.2]
        ring
      · have h := ih (f + 1)
        simp [wrapTexts, hws, pwl, bareTexts, isBareText, pw, h.1, h.2]
        ring
    | elem i t a cs2 =>
      have h := ih f
      simp [wrapTexts, pwl, bareTexts, isBareText, h.1, h.2]
      ring
    | comment i =>
      have h := ih f
      simp [wrapTexts, pwl, bareTexts, isBareText, h.1, h.2]
      ring
    | fragment i =>
      have h := ih f
      simp [wrapTexts, pwl, bareTexts, isBareText, h.1, h.2]
      ring
    | doctype i =>
      have h := ih f
      simp [wrapTexts, pwl, bareTexts, isBareText, h.1, h.2]
      ring

theorem transformDiv_pwl_le (f i : Nat) (a : List (String × String))
    (cs : List Node) :
    pwl (transformDiv f (Node.elem i "div" a cs)).2 ≤
      pw (Node.elem i "div" a cs) := by
  unfold transformDiv
  simp only [Node.childrenOf, Node.attrsOf, Node.tagOf, Node.nid]
  by_cases h1 : hasSingleP cs
  · simp only [h1, if_true]
    have hsub : ((cs.filter Node.isElem).take 1).Sublist cs :=
      ((cs.filter Node.isElem).take_sublist 1).trans (cs.filter_sublist)
    have := pwl_sublist_le hsub
    simp only [pw]
    omega
  · by_cases h2 : hasBlockElem cs
    · simp only [h1, h2, Bool.not_true, if_false, Bool.false_eq_true]
      have hw := wrapTexts_pwl f cs
      simp [pwl, pw, hw.1, hw.2]
      omega
    · simp only [h1, h2, Bool.not_false, if_false, if_true,
        Bool.false_eq_true]
      simp [pwl, pw]

theorem captureChild_pwl_le (cfg : Config) (st : RState) (c : Node) :
    pwl (captureChild cfg st c).2 ≤ pw c := by
  cases c with
  | elem i t a cs =>
    rw [captureChild]
    cases hb : extractByline (Node.elem i t a cs) with
    | some byline => simp [pwl, pw]
    | none =>
      simp only
      split
      · simp [pwl]
      · split
        · simp [pwl]
        · split
          · rename_i hdiv
            have ht : t = "div" := by simpa using hdiv
            subst ht
            simpa using transformDiv_pwl_le st.fresh i a cs
          · split
            · simp [pwl, pw, Node.attrsOf, Node.childrenOf]
            · simp [pwl]
  | text i s =>
    rw [captureChild]
    by_cases hws : trimEmpty s
    · simp [hws, pwl]
    · simp [hws, pwl]
  | comment i => simp [captureChild, pwl]
  | fragment i => simp [captureChild, pwl]
  | doctype i => simp [captureChild, pwl, pw]

theorem captureChildren_pwl_le (cfg : Config) (st : RState)
    (l : List Node) : pwl (captureChildren cfg st l).2 ≤ pwl l := by
  induction l generalizing st with
  | nil => simp [captureChildren, pwl]
  | cons c cs ih =>
    simp only [captureChildren, pwl_append]
    have h1 := captureChild_pwl_le cfg st c
    have h2 := ih (captureChild cfg st c).1
    simp only [pwl]
    omega

/-! ## The traversal driver (src/lib.rs lines 535-570)

The loop in readify visits every node: on_capturing fires on first arrival
(pre-order, transforming the children snapshot), then the children are
visited left to right, then on_bubbling fires on departure (post-order).
The next position is computed before on_bubbling runs, so a node removing
itself does not disturb the walk; a p removing its preceding br rewrites
the already-visited sibling list.

The recursion is bounded by the pw measure (capturing never increases it,
by captureChildren_pwl_le, and every step strictly decreases it).  To keep
the definitions computable by the kernel the recursion is written against
an explicit fuel parameter that dominates the measure; the theorem
walk_fuel_irrelevant proves that any fuel above the measure produces the
same result, so walkNode below - fuel 3 pw n + 1 - is the total function
of the source. -/

mutual
/-- Visit one node: capture its children, walk them, then bubble the node.
The third component reports that the node removed itself during bubbling
(its parent drops it from the tree; for the detached top level this is a
no-op and readify still returns the node). -/
def walkNodeF (cfg : Config) (path : List PathE) :
    Nat → RState → Node → RState × Node × Bool
  | 0, st, n => (st, n, false)
  | fuel + 1, st, n =>
    match n with
    | Node.elem i t a cs =>
      let cap := captureChildren cfg st cs
      let sub := walkChildrenF cfg (⟨i, t, a⟩ :: path) fuel cap.1 [] cap.2
      let n2 := Node.elem i t a sub.2
      match bubbleElement cfg sub.1 path n2 with
      | (st3, some n3) => (st3, n3, false)
      | (st3, none) => (st3, n2, true)
    | Node.text i s2 => (bubbleText st path s2, Node.text i s2, false)
    | n => (st, n, false)

/-- Walk the (captured) children in order, accumulating the processed
siblings; a removed child is recorded as a detached subtree, and a bubbled
p removes a br that is its nearest preceding sibling element. -/
def walkChildrenF (cfg : Config) (path : List PathE) :
    Nat → RState → List Node → List Node → RState × List Node
  | 0, st, acc, _ => (st, acc)
  | _ + 1, st, acc, [] => (st, acc)
  | fuel + 1, st, acc, c :: rem =>
    let r := walkNodeF cfg path fuel st c
    if r.2.2 then
      walkChildrenF cfg path fuel
        { r.1 with removedT := r.1.removedT ++ [r.2.1] } acc rem
    else
      let acc2 := if r.2.1.tagOf == "p" then removePrecedingBr acc else acc
      walkChildrenF cfg path fuel r.1 (acc2 ++ [r.2.1]) rem
end

/-- Any two fuels above the pw measure give the same walk: the fuel is an
artifact of the encoding, not of the algorithm. -/
theorem walk_fuel_irrelevant :
    ∀ k : Nat,
      (∀ f g cfg path st n, f + g ≤ k → 3 * pw n < f → 3 * pw n < g →
        walkNodeF cfg path f st n = walkNodeF cfg path g st n) ∧
      (∀ f g cfg path st acc l, f + g ≤ k → 3 * pwl l + 1 < f →
        3 * pwl l + 1 < g →
        walkChildrenF cfg path f st acc l =
          walkChildrenF cfg path g st acc l) := by
  intro k
  induction k using Nat.strong_induction_on with
  | _ k ih =>
    constructor
    · intro f g cfg path st n hk hf hg
      have hp := pw_pos n
      match f, g with
      | f2 + 1, g2 + 1 =>
        match n with
        | Node.elem i t a cs =>
          have hcap := captureChildren_pwl_le cfg st cs
          have hpw : pw (Node.elem i t a cs) = 1 + pwl cs +
              (if t = "div" then 2 * bareTexts cs else 0) := by simp [pw]
          have hrec := (ih (f2 + g2) (by omega)).2 f2 g2 cfg
            (⟨i, t, a⟩ :: path) (captureChildren cfg st cs).1 []
            (captureChildren cfg st cs).2 (by omega) (by omega) (by omega)
          simp only [walkNodeF]
          rw [hrec]
        | Node.text i s2 => simp only [walkNodeF]
        | Node.comment i => simp only [walkNodeF]
        | Node.fragment i => simp only [walkNodeF]
        | Node.doctype i => simp only [walkNodeF]
    · intro f g cfg path st acc l hk hf hg
      match f, g with
      | f2 + 1, g2 + 1 =>
        match l with
        | [] => simp only [walkChildrenF]
        | c :: rem =>
          have hpc := pw_pos c
          have hpwl : pwl (c :: rem) = pw c + pwl rem := by simp [pwl]
          have hnode := (ih (f2 + g2) (by omega)).1 f2 g2 cfg path st c
            (by omega) (by omega) (by omega)
          have hrest := fun st2 acc2 =>
            (ih (f2 + g2) (by omega)).2 f2 g2 cfg path st2 acc2 rem
              (by omega) (by omega) (by omega)
          simp only [walkChildrenF]
          rw [hnode]
          by_cases hrm : (walkNodeF cfg path g2 st c).2.2
          · simp only [hrm, if_true]
            exact hrest _ _
          · simp only [hrm, Bool.false_eq_true, if_false]
            exact hrest _ _

/-- The walk at the canonical (always sufficient) fuel. -/
def walkNode (cfg : Config) (path : List PathE) (st : RState) (n : Node) :
    RState × Node × Bool :=
  walkNodeF cfg path (3 * pw n + 1) st n

/-! ## Candidate scoring and selection (src/lib.rs lines 864-1010) -/

mutual
/-- Locate a node by identity inside a tree, returning the node together
with its chain of ancestors, nearest first (NodeRef::ancestors excludes the
node itself and ends at the root of its - possibly detached - tree). -/
def locate (t : Nat) : Node → Option (Node × List Node)
  | .elem i tg a cs =>
    if i = t then some (.elem i tg a cs, [])
    else (locateL t cs).map (fun r => (r.1, r.2 ++ [Node.elem i tg a cs]))
  | n => if n.nid = t then some (n, []) else none
def locateL (t : Nat) : List Node → Option (Node × List Node)
  | [] => none
  | c :: cs =>
    match locate t c with
    | some r => some r
    | none => locateL t cs
end

/-- Locate a node by identity in the forest made of the walked tree and the
detached subtrees (a reference held in the candidate list keeps a detached
candidate reachable; its ancestor chain ends where it was detached). -/
def locateForest (t : Nat) (forest : List Node) : Option (Node × List Node) :=
  locateL t forest

/-- Identifiers of the ancestors of a node in the forest. -/
def ancestorIds (forest : List Node) (t : Nat) : List Nat :=
  match locateForest t forest with
  | some r => r.2.map Node.nid
  | none => []

/-- Stable descending insertion for score_candidates: Vec::sort_by with a
reversed partial_cmp is a stable descending sort, so a candidate scored
later never overtakes an equal earlier score. -/
def insertDesc (x : Frac × Cand) : List (Frac × Cand) → List (Frac × Cand)
  | [] => [x]
  | y :: ys => if y.1 < x.1 then x :: y :: ys else y :: insertDesc x ys

def sortDesc (l : List (Frac × Cand)) : List (Frac × Cand) :=
  l.foldl (fun acc x => insertDesc x acc) []

/-- score_candidates, lines 864-926: skip tombstoned entries, add the tag
and class weights, scale by one minus the link density, sort descending and
keep the prefix scoring at least three quarters of the best. -/
def scoreCandidates (cfg : Config) (st : RState) : List Cand :=
  let scored := st.candidates.filterMap (fun c =>
    let info := st.getInfo c.cid
    if !info.is_candidate then none
    else
      let score := info.content_score + tagScore c.ctag +
        (if cfg.weight_classes then classScoreOf c.cattrs else 0)
      let score := score *
        (1 - Frac.ofNat info.link_len / Frac.ofNat info.text_len)
      some (score, c))
  match sortDesc scored with
  | [] => []
  | (top, c) :: rest =>
    let threshold := top * (3 / 4)
    (((top, c) :: rest).takeWhile (fun sc => threshold ≤ sc.1)).map
      (fun sc => sc.2)

/-- The inner counting loop of find_common_candidate: count how many of the
remaining candidates have the given node among their ancestors, returning
as soon as the count reaches MIN_CANDIDATES. -/
def hitsMin (forest : List Node) (commonId : Nat) : List Cand → Nat → Bool
  | [], _ => false
  | c :: cs, n =>
    let n2 := if (ancestorIds forest c.cid).contains commonId then n + 1 else n
    if n2 == 4 then true else hitsMin forest commonId cs n2

/-- The ancestor scan of find_common_candidate. -/
def commonScan (forest : List Node) (rest : List Cand) (bestId : Nat) :
    List Node → Nat
  | [] => bestId
  | common :: more =>
    if hitsMin forest common.nid rest 0 then common.nid
    else commonScan forest rest bestId more

/-- find_common_candidate, lines 928-962, with MIN_CANDIDATES = 4: when at
least four candidates survive and the best one is not body and not a direct
child of body, walk its ancestors strictly below body and return the first
that is an ancestor of at least four of the remaining candidates, falling
back to the best candidate. -/
def findCommonCandidate (forest : List Node) (cands : List Cand) : Nat :=
  match cands with
  | [] => 0
  | best :: rest =>
    match locateForest best.cid forest with
    | none => best.cid
    | some (bn, ancs) =>
      if cands.length < 4 || bn.tagOf == "body" ||
          (match ancs.head? with
           | none => true
           | some p => p.tagOf == "body") then
        best.cid
      else
        commonScan forest rest best.cid
          (ancs.takeWhile (fun a => !(a.tagOf == "body")))

/-- The score climb of correct_candidate, lines 970-986: the ancestor
iterator is fixed at the starting candidate; the walk stops at body or when
a parent drops below a third of the starting score, and promotes whenever
a parent scores above the last seen score. -/
def climbScores (st : RState) (threshold : Frac) :
    List Node → Node → Frac → Node
  | [], cand, _ => cand
  | parent :: more, cand, lastScore =>
    let parentScore := (st.getInfo parent.nid).content_score
    if parentScore < threshold then cand
    else
      climbScores st threshold more
        (if lastScore < parentScore then parent else cand) parentScore

/-- correct_candidate, lines 964-1010.  (The locate fallbacks are
unreachable: the source dereferences node references held by the candidate
list, and every identifier that survives scoring denotes a node kept in the
walked tree or recorded on detachment.) -/
def correctCandidate (st : RState) (forest : List Node) (startId : Nat) :
    Node :=
  match locateForest startId forest with
  | none => Node.elem 0 "div" [] []
  | some (cand0, ancs0) =>
    let lastScore := (st.getInfo cand0.nid).content_score
    let threshold := lastScore / 3
    let cand1 := climbScores st threshold
      (ancs0.takeWhile (fun a => !(a.tagOf == "body"))) cand0 lastScore
    let result :=
      match locateForest cand1.nid forest with
      | none => cand1
      | some (_, ancs1) =>
        let chain := ancs1.takeWhile (fun parent =>
          !(parent.tagOf == "body") && parent.childrenOf.length == 1 &&
            !(st.getInfo parent.nid).is_shabby)
        (chain.getLast?).getD cand1
    if isAcceptableTopLevel result.tagOf then result
    else Node.elem st.fresh "div" result.attrsOf result.childrenOf

mutual
/-- Largest identifier in a tree, for allocating fresh identities. -/
def maxId : Node → Nat
  | .elem i _ _ cs => max i (maxIdL cs)
  | n => n.nid
def maxIdL : List Node → Nat
  | [] => 0
  | c :: cs => max (maxId c) (maxIdL cs)
end

/-- The initial engine state of Readability::new for a given top level. -/
def initState (t : Node) : RState :=
  ⟨fun _ => NodeInfo.zero, [], none, [], maxId t + 1⟩

/-- The result of the walk together with the final state. -/
def runWalk (cfg : Config) (t : Node) : RState × Node × Bool :=
  walkNode cfg [] (initState t) t

/-- readify, lines 535-586: walk the tree; with no candidates return the
(walked) top level; otherwise score the candidates, and when none survive
return the top level, else pick the common candidate and correct it. -/
def readify (cfg : Config) (t : Node) : Node :=
  let r := runWalk cfg t
  let st1 := r.1
  let root := r.2.1
  if st1.candidates.isEmpty then root
  else
    let survivors := scoreCandidates cfg st1
    if survivors.isEmpty then root
    else
      let st2 := { st1 with candidates := survivors }
      let forest := root :: st2.removedT
      correctCandidate st2 forest (findCommonCandidate forest survivors)

/-! ## Basic lemmas about the embedding -/

theorem Frac.toRat_add (x y : Frac) :
    (x + y).toRat = x.toRat + y.toRat := by
  have hx := x.dpos
  have hy := y.dpos
  have hx0 : (x.den : ℚ) ≠ 0 := by
    exact_mod_cast (by omega : x.den ≠ 0)
  have hy0 : (y.den : ℚ) ≠ 0 := by
    exact_mod_cast (by omega : y.den ≠ 0)
  show Frac.toRat ⟨x.num * y.den + y.num * x.den, x.den * y.den, _⟩ = _
  rw [Frac.toRat, Frac.toRat, Frac.toRat, div_add_div _ _ hx0 hy0]
  push_cast
  ring_nf

theorem Frac.toRat_div (x y : Frac) (h : y.num ≠ 0) :
    (x / y).toRat = x.toRat / y.toRat := by
  have hx := x.dpos
  have hy := y.dpos
  have hx0 : (x.den : ℚ) ≠ 0 := by
    exact_mod_cast (by omega : x.den ≠ 0)
  have hy0 : (y.den : ℚ) ≠ 0 := by
    exact_mod_cast (by omega : y.den ≠ 0)
  have hn0 : (y.num : ℚ) ≠ 0 := by exact_mod_cast h
  show Frac.toRat (if _ : y.num = 0 then _ else _) = _
  rw [dif_neg h]
  by_cases hpos : 0 < y.num
  · rw [dif_pos hpos]
    simp only [Frac.toRat]
    push_cast
    field_simp
  · rw [dif_neg hpos]
    simp only [Frac.toRat]
    have hn1 : -(y.num : ℚ) ≠ 0 := by simpa using hn0
    push_cast
    field_simp

theorem Frac.toRat_ofNat (n : Nat) : (Frac.ofNat n).toRat = n := by
  unfold Frac.ofNat Frac.toRat
  norm_num

theorem RState.getInfo_setInfo (st : RState) (i j : Nat) (v : NodeInfo) :
    (st.setInfo i v).getInfo j = if j = i then v else st.getInfo j := rfl

/-- Bubbling never changes the identity of the node it returns. -/
theorem bubbleElement_nid (cfg : Config) (st : RState) (path : List PathE)
    (n m : Node) (h : (bubbleElement cfg st path n).2 = some m) :
    m.nid = n.nid := by
  unfold bubbleElement at h
  simp only [apply_ite Prod.snd] at h
  repeat' split at h
  all_goals
    first
    | exact Option.noConfusion h
    | (rw [← Option.some.inj h]; rfl)

/-- The walk never changes the identity of the node it returns. -/
theorem walkNodeF_nid (cfg : Config) (path : List PathE) (fuel : Nat)
    (st : RState) (n : Node) :
    (walkNodeF cfg path fuel st n).2.1.nid = n.nid := by
  cases fuel with
  | zero => rfl
  | succ fuel =>
    cases n with
    | elem i t a cs =>
      rw [walkNodeF]
      cases hb : bubbleElement cfg
          (walkChildrenF cfg (⟨i, t, a⟩ :: path) fuel
            (captureChildren cfg st cs).1 [] (captureChildren cfg st cs).2).1
          path
          (Node.elem i t a
            (walkChildrenF cfg (⟨i, t, a⟩ :: path) fuel
              (captureChildren cfg st cs).1 [] (captureChildren cfg st cs).2).2)
        with
      | mk st3 res =>
        cases res with
        | none => simp [hb, Node.nid]
        | some n3 =>
          have := bubbleElement_nid cfg _ path _ n3 (by rw [hb])
          simp only [hb]
          simpa [Node.nid] using this
    | text i s2 => rfl
    | comment i => rfl
    | fragment i => rfl
    | doctype i => rfl

/-! ## Concrete documents used as counterexamples and witnesses -/

/-- The default engine configuration of Readability::new. -/
def cfg0 : Config := {}

/-- A body whose only text is too short to score: no candidates arise and
readify returns the detached body unchanged. -/
def exDegraded : Node :=
  .elem 0 "body" [] [.elem 1 "span" [] [.text 2 "hi"]]

/-- A div with no text whose direct children are a span (holding a br and
an img) and a br: two children, and two br descendants in total. -/
def exUnstuffedDiv : Node :=
  .elem 0 "body" []
    [.elem 1 "div" []
      [.elem 2 "span" [] [.elem 3 "br" [] [], .elem 4 "img" [] []],
       .elem 5 "br" [] []]]

/-- Two rel=author elements followed by a span. -/
def exBylinePair : Node :=
  .elem 0 "body" []
    [.elem 1 "a" [("rel", "author")] [.text 2 "Ann"],
     .elem 3 "a" [("rel", "author")] [.text 4 "Bob"],
     .elem 5 "span" [] [.text 6 "hello"]]

/-- 111 characters with seven isolated commas: raw score 9. -/
def textSevenCommas : String :=
  String.mk
    ((List.replicate 7 (List.replicate 13 'a' ++ [','])).flatten ++
      List.replicate 13 'a')

/-- 101 plain characters: raw score 2. -/
def textPlain : String := String.mk (List.replicate 101 'a')

/-- A negatively classed div holding two heavy paragraphs; it is removed as
conditionally unacceptable after its paragraphs have already scored their
ancestors. -/
def widgetDiv (base : Nat) : Node :=
  .elem base "div" [("class", "widget")]
    [.elem (base + 1) "p" [] [.text (base + 2) textSevenCommas],
     .elem (base + 3) "p" [] [.text (base + 4) textPlain]]

/-- A document whose first-run selection is driven by scores that widget
divs contributed before being pruned; on the first-run output those scores
are gone and the selection lands elsewhere. -/
def exRescore : Node :=
  .elem 0 "body" []
    [.elem 1 "div" [("class", "widget")]
      [.elem 2 "blockquote" [] [.elem 3 "p" [] [.text 4 textSevenCommas]],
       .elem 5 "blockquote" []
         [.elem 6 "p" [] [.text 7 textPlain], widgetDiv 20],
       .elem 8 "blockquote" []
         [.elem 9 "p" [] [.text 10 textPlain], widgetDiv 30],
       .elem 11 "blockquote" []
         [.elem 12 "p" [] [.text 13 textPlain], widgetDiv 40]]]

/-- body, a container r, an inner wrapper x with four element children, and
a fifth element beside x: with candidates c0..c4 as below, x is an ancestor
of exactly three of the candidates after the best one, and r of four. -/
def commonTree : Node :=
  .elem 0 "body" []
    [.elem 1 "r" []
      [.elem 2 "x" []
        [.elem 3 "c0" [] [], .elem 4 "c1" [] [], .elem 5 "c2" [] [],
         .elem 6 "c3" [] []],
       .elem 7 "c4" [] []]]

def commonCands : List Cand :=
  [⟨3, "c0", []⟩, ⟨4, "c1", []⟩, ⟨5, "c2", []⟩, ⟨6, "c3", []⟩,
   ⟨7, "c4", []⟩]

/-! ## Claim C1 -/

/-- The first ancestor, strictly below body, of the best candidate that is
an ancestor of at least k of the remaining candidates. -/
def firstCommonAncestor (k : Nat) (forest : List Node) (best : Cand)
    (rest : List Cand) : Option Nat :=
  match locateForest best.cid forest with
  | none => none
  | some (_, ancs) =>
    ((ancs.takeWhile (fun a => !(a.tagOf == "body"))).find?
      (fun a =>
        decide (k ≤ rest.countP
          (fun c => (ancestorIds forest c.cid).contains a.nid)))).map
      Node.nid

/-- C1, counterexample: on a document with no candidates, readify returns
the detached body unchanged, and body is not one of the acceptable
top-level tags - against the claim that the returned node always carries a
tag among div, article, section, p. -/
theorem c1_counterexample :
    isAcceptableTopLevel (readify cfg0 exDegraded).tagOf = false ∧
      readify cfg0 exDegraded = exDegraded :=
  ⟨by decide, by rfl⟩

/-- C1, amended: the node returned by readify either is the original
detached top-level node (same identity, arbitrary tag - the degraded path),
or carries one of the acceptable top-level tags div, article, section, p
(candidate correction coerces any other tag to div). -/
theorem c1_amended (cfg : Config) (t : Node) :
    (readify cfg t).nid = t.nid ∨
      isAcceptableTopLevel (readify cfg t).tagOf = true := by
  unfold readify
  by_cases h1 : (runWalk cfg t).1.candidates.isEmpty
  · left
    simp only [h1, if_true]
    exact walkNodeF_nid cfg [] (3 * pw t + 1) (initState t) t
  · by_cases h2 : (scoreCandidates cfg (runWalk cfg t).1).isEmpty
    · left
      simp only [h1, h2, Bool.false_eq_true, if_false, if_true]
      exact walkNodeF_nid cfg [] (3 * pw t + 1) (initState t) t
    · right
      simp only [h1, h2, Bool.false_eq_true, if_false]
      unfold correctCandidate
      split
      · rfl
      · dsimp only
        split
        · rename_i hacc
          exact hacc
        · rfl

/-! ## Claim C2 -/

/-- Modelled from the spec (claim C2): the common-ancestor choice as the
spec words it, with a threshold of three remaining candidates. -/
def specCommonCandidateThree (forest : List Node) (cands : List Cand) :
    Option Nat :=
  match cands with
  | [] => none
  | best :: rest => firstCommonAncestor 3 forest best rest

/-- C2, counterexample: five candidates survive, the best is not body and
its parent is not body; the first ancestor that covers at least three of
the remaining candidates is node 2, but find_common_candidate returns node
1 (the first ancestor covering at least four, MIN_CANDIDATES). -/
theorem c2_counterexample :
    4 ≤ commonCands.length ∧
      specCommonCandidateThree [commonTree] commonCands = some 2 ∧
      findCommonCandidate [commonTree] commonCands = 1 :=
  ⟨by decide, by decide, by decide⟩

/-- The inner counter of find_common_candidate reaches MIN_CANDIDATES
exactly when at least four of the remaining candidates are below the probed
ancestor. -/
theorem hitsMin_iff (forest : List Node) (cid : Nat) :
    ∀ (cs : List Cand) (n : Nat), n < 4 →
      (hitsMin forest cid cs n = true ↔
        4 ≤ n + cs.countP
          (fun c => (ancestorIds forest c.cid).contains cid)) := by
  intro cs
  induction cs with
  | nil =>
    intro n hn
    simp only [hitsMin, List.countP_nil, Bool.false_eq_true, false_iff]
    omega
  | cons c cs ih =>
    intro n hn
    rw [hitsMin, List.countP_cons]
    by_cases hhit : (ancestorIds forest c.cid).contains cid
    · simp only [hhit, if_true, if_pos]
      by_cases h4 : n + 1 = 4
      · simp only [h4]
        simp only [beq_self_eq_true, if_true, true_iff]
        omega
      · have : (n + 1 == 4) = false := by
          simp
          omega
        rw [this]
        simp only [Bool.false_eq_true, if_false]
        rw [ih (n + 1) (by omega)]
        omega
    · simp only [Bool.not_eq_true] at hhit
      simp only [hhit, Bool.false_eq_true, if_false]
      have : (n == 4) = false := by
        simp
        omega
      rw [this]
      simp only [Bool.false_eq_true, if_false]
      rw [ih n (by omega)]
      omega

/-- The ancestor scan returns the first hit of the counting loop, or the
best candidate when none hits. -/
theorem commonScan_eq (forest : List Node) (rest : List Cand) (bid : Nat) :
    ∀ l : List Node,
      commonScan forest rest bid l =
        ((l.find? (fun a =>
          decide (4 ≤ rest.countP
            (fun c => (ancestorIds forest c.cid).contains a.nid)))).map
          Node.nid).getD bid := by
  intro l
  induction l with
  | nil => rfl
  | cons common more ih =>
    rw [commonScan, List.find?]
    have hiff := hitsMin_iff forest common.nid rest 0 (by omega)
    by_cases hhit : hitsMin forest common.nid rest 0
    · have : decide (4 ≤ rest.countP
          (fun c => (ancestorIds forest c.cid).contains common.nid)) = true := by
        rw [hiff] at hhit
        simpa using hhit
      rw [hhit, this]
      rfl
    · simp only [Bool.not_eq_true] at hhit
      have : decide (4 ≤ rest.countP
          (fun c => (ancestorIds forest c.cid).contains common.nid)) = false := by
        rw [Bool.eq_false_iff]
        intro hc
        rw [Bool.eq_false_iff] at hhit
        exact hhit (hiff.2 (by simpa using hc))
      rw [hhit, this]
      simpa using ih

/-- C2, amended: with MIN_CANDIDATES = 4 as in the source, when four or
more candidates survive scoring and the best candidate is not body and its
parent is not body, find_common_candidate returns the first ancestor of the
best candidate strictly below body that is an ancestor of at least FOUR of
the remaining candidates, falling back to the best candidate when no such
ancestor exists. -/
theorem c2_amended (forest : List Node) (best : Cand) (rest : List Cand)
    (bn : Node) (ancs : List Node)
    (hloc : locateForest best.cid forest = some (bn, ancs))
    (hlen : 4 ≤ (best :: rest).length)
    (hbody : (bn.tagOf == "body") = false)
    (hparent : (match ancs.head? with
      | none => true
      | some p => p.tagOf == "body") = false) :
    findCommonCandidate forest (best :: rest) =
      (firstCommonAncestor 4 forest best rest).getD best.cid := by
  unfold findCommonCandidate firstCommonAncestor
  simp only [hloc]
  have hlt : (decide ((best :: rest).length < 4)) = false := by
    simp only [decide_eq_false_iff_not]
    omega
  simp only [hlt, hbody, hparent, Bool.or_self, Bool.or_false,
    Bool.false_or, Bool.false_eq_true, if_false]
  exact commonScan_eq forest rest best.cid
    (ancs.takeWhile (fun a => !(a.tagOf == "body")))

/-- C2, amended, witness: on the concrete five-candidate document the
characterization applies and both sides compute to node 1. -/
theorem c2_amended_witness :
    findCommonCandidate [commonTree] commonCands =
      (firstCommonAncestor 4 [commonTree] ⟨3, "c0", []⟩
        (commonCands.tail)).getD 3 := by
  have h := c2_amended [commonTree] ⟨3, "c0", []⟩ commonCands.tail
    (Node.elem 3 "c0" [] [])
    [Node.elem 2 "x" []
        [.elem 3 "c0" [] [], .elem 4 "c1" [] [], .elem 5 "c2" [] [],
         .elem 6 "c3" [] []],
      Node.elem 1 "r" []
        [.elem 2 "x" []
          [.elem 3 "c0" [] [], .elem 4 "c1" [] [], .elem 5 "c2" [] [],
           .elem 6 "c3" [] []],
         .elem 7 "c4" [] []],
      commonTree]
    (by rfl) (by decide) (by decide) (by decide)
  exact h

/-! ## Claim C3 -/

/-- A qualifying byline child is always recorded (overwriting any earlier
byline) and removed: the first-occurrence guard of mozilla/readability is
commented out in the source (lines 616-617, 628). -/
theorem captureChild_byline_some (cfg : Config) (st : RState) (c : Node)
    (b : String) (h : extractByline c = some b) :
    captureChild cfg st c = ({ st with byline := some b }, []) := by
  cases c with
  | elem i t a cs =>
    rw [captureChild, h]
  | text i s2 => simp [extractByline] at h
  | comment i => simp [extractByline] at h
  | fragment i => simp [extractByline] at h
  | doctype i => simp [extractByline] at h

/-- A non-qualifying child never changes the captured byline. -/
theorem captureChild_byline_none (cfg : Config) (st : RState) (c : Node)
    (h : extractByline c = none) :
    (captureChild cfg st c).1.byline = st.byline := by
  cases c with
  | elem i t a cs =>
    rw [captureChild, h]
    repeat' split
    all_goals simp_all
  | text i s2 =>
    rw [captureChild]
    split <;> rfl
  | comment i => rfl
  | fragment i => rfl
  | doctype i => rfl

/-- C3, counterexample: in a document with two rel=author elements, both
qualify, both are removed from the tree, and the recorded byline is the
text of the LAST one - against the claim that only the first encountered
element is recorded and removed. -/
theorem c3_counterexample :
    extractByline (Node.elem 3 "a" [("rel", "author")] [.text 4 "Bob"]) =
        some "Bob" ∧
      (runWalk cfg0 exBylinePair).1.byline = some "Bob" ∧
      (runWalk cfg0 exBylinePair).2.1 =
        Node.elem 0 "body" [] [Node.elem 5 "span" [] [Node.text 6 "hello"]] :=
  ⟨by decide, by decide, by rfl⟩

/-- C3, amended: during capture EVERY element child with rel=author and a
trimmed text content of 1 to 99 bytes is recorded as the byline
(overwriting any earlier value) and removed from the tree; after a capture
pass the byline is the text of the last such child, or the previous byline
when there is none. -/
theorem c3_amended (cfg : Config) (st : RState) (cs : List Node) :
    ((captureChildren cfg st cs).1.byline =
      match (cs.filterMap extractByline).getLast? with
      | some b => some b
      | none => st.byline) ∧
    (∀ c b, extractByline c = some b →
      ∀ st2, captureChild cfg st2 c = ({ st2 with byline := some b }, [])) := by
  constructor
  · induction cs generalizing st with
    | nil => rfl
    | cons c cs ih =>
      rw [captureChildren, List.filterMap_cons]
      cases hc : extractByline c with
      | some b =>
        rw [captureChild_byline_some cfg st c b hc]
        rw [ih { st with byline := some b }]
        cases hl : (cs.filterMap extractByline).getLast? with
        | some b2 => simp [List.getLast?_cons, hl]
        | none =>
          have : (cs.filterMap extractByline) = [] := by
            cases hfm : cs.filterMap extractByline with
            | nil => rfl
            | cons x xs =>
              rw [hfm] at hl
              simp [List.getLast?] at hl
          simp [this]
      | none =>
        have hby := captureChild_byline_none cfg st c hc
        have := ih (captureChild cfg st c).1
        rw [this, hby]
  · intro c b hb st2
    exact captureChild_byline_some cfg st2 c b hb

/-- C3, amended, witness: the first rel=author element of the concrete
document qualifies and is recorded and removed by its capture step. -/
theorem c3_amended_witness :
    captureChild cfg0 (initState exBylinePair)
        (Node.elem 1 "a" [("rel", "author")] [.text 2 "Ann"]) =
      ({ initState exBylinePair with byline := some "Ann" }, []) :=
  (c3_amended cfg0 (initState exBylinePair) []).2 _ "Ann" (by decide) _

/-! ## Claim C4 -/

/-- The div branch of is_stuffed as a pure arithmetic fact. -/
theorem stuffedCore (cc br hr text : Nat) :
    ((if text == 0 then !(cc == 0 || cc == br + hr) else true) = true ↔
      0 < text ∨ (cc ≠ 0 ∧ cc ≠ br + hr)) := by
  by_cases h : text = 0
  · simp [h]
  · simp [h]
    omega

/-- C4, counterexample: a div with no text whose two children are a span
and a br, with two br elements in its whole subtree, is removed by the
bubble stage (children count equals the subtree-wide br count), although it
has a child that is neither br nor hr - against the claim that such an
element is kept. -/
theorem c4_counterexample :
    readify cfg0 exUnstuffedDiv = Node.elem 0 "body" [] [] ∧
      ((Node.elem 1 "div" []
          [.elem 2 "span" [] [.elem 3 "br" [] [], .elem 4 "img" [] []],
           .elem 5 "br" [] []]).childrenOf.any
        (fun c => !(c.tagOf == "br") && !(c.tagOf == "hr"))) = true :=
  ⟨by rfl, by decide⟩

/-- C4, amended: for div, section, header and h2..h6, is_stuffed holds iff
the node has text, or it has at least one child and the number of its
direct children differs from the total number of br plus hr elements in its
whole subtree (br_count and hr_count aggregate all descendants, not just
children). -/
theorem c4_amended (i : Nat) (t : String) (a : List (String × String))
    (cs : List Node) (info : NodeInfo)
    (ht : t ∈ ["div", "section", "header", "h2", "h3", "h4", "h5", "h6"]) :
    (isStuffed (Node.elem i t a cs) info = true ↔
      0 < info.text_len ∨
        (cs.length ≠ 0 ∧ cs.length ≠ info.br_count + info.hr_count)) := by
  have h8 : t = "div" ∨ t = "section" ∨ t = "header" ∨ t = "h2" ∨
      t = "h3" ∨ t = "h4" ∨ t = "h5" ∨ t = "h6" := by
    simpa using ht
  rcases h8 with rfl | rfl | rfl | rfl | rfl | rfl | rfl | rfl <;>
    · simp only [isStuffed]
      norm_num
      constructor
      · rintro ⟨-, h⟩
        rcases h with h | h
        · exact Or.inl (by omega)
        · exact Or.inr h
      · intro h
        refine ⟨⟨by decide, by decide, by decide⟩, ?_⟩
        rcases h with h | h
        · exact Or.inl (by omega)
        · exact Or.inr h

/-- C4, amended, witness: a div whose only child is its only subtree br is
not stuffed, matching the amended characterization at that input. -/
theorem c4_amended_witness :
    "div" ∈ ["div", "section", "header", "h2", "h3", "h4", "h5", "h6"] ∧
      (isStuffed (Node.elem 1 "div" [] [Node.elem 2 "br" [] []])
          { br_count := 1 } = true ↔
        0 < (0 : Nat) ∨ (([Node.elem 2 "br" [] []].length ≠ 0) ∧
          [Node.elem 2 "br" [] []].length ≠ 1 + 0)) :=
  ⟨by decide, c4_amended 1 "div" [] [Node.elem 2 "br" [] []]
    { br_count := 1 } (by decide)⟩

/-! ## Claim C5 -/

theorem Frac.toRat_one : ((1 : Frac)).toRat = 1 := by
  show ((1 : Int) : ℚ) / ((1 : Int) : ℚ) = 1
  norm_num

theorem Frac.toRat_two : ((2 : Frac)).toRat = 2 := by
  show ((2 : Int) : ℚ) / ((1 : Int) : ℚ) = 2
  norm_num

theorem Frac.toRat_level2 : ((3 : Frac) * Frac.ofNat 2).toRat = 6 := by
  show ((3 * 2 : Int) : ℚ) / ((1 * 1 : Int) : ℚ) = 6
  norm_num

/-- One propagation step, read at the ancestor it updates. -/
theorem propagateStep_self (s : Frac) (st : RState) (lvl : Nat)
    (anc : PathE) :
    ((propagateStep s st (lvl, anc)).getInfo anc.pid).content_score =
        (st.getInfo anc.pid).content_score +
          s / (if lvl = 0 then 1 else if lvl = 1 then 2
            else 3 * Frac.ofNat lvl) ∧
      ((propagateStep s st (lvl, anc)).getInfo anc.pid).is_candidate =
        true := by
  unfold propagateStep
  by_cases hc : (st.info anc.pid).is_candidate
  · simp [hc, RState.getInfo_setInfo, RState.getInfo, RState.setInfo]
  · simp only [Bool.not_eq_true] at hc
    simp [hc, RState.getInfo_setInfo, RState.getInfo, RState.setInfo]

/-- One propagation step, read anywhere else. -/
theorem propagateStep_other (s : Frac) (st : RState) (lvl : Nat)
    (anc : PathE) (j : Nat) (hj : j ≠ anc.pid) :
    (propagateStep s st (lvl, anc)).getInfo j = st.getInfo j := by
  unfold propagateStep
  by_cases hc : (st.info anc.pid).is_candidate
  · simp [hc, RState.getInfo_setInfo, RState.getInfo, RState.setInfo, hj]
  · simp only [Bool.not_eq_true] at hc
    simp [hc, RState.getInfo_setInfo, RState.getInfo, RState.setInfo, hj]

/-- One propagation step appends the ancestor to the candidate list exactly
when it was not flagged. -/
theorem propagateStep_cands (s : Frac) (st : RState) (lvl : Nat)
    (anc : PathE) :
    (propagateStep s st (lvl, anc)).candidates =
      st.candidates ++
        (if (st.getInfo anc.pid).is_candidate then []
          else [⟨anc.pid, anc.ptag, anc.pattrs⟩]) := by
  unfold propagateStep
  by_cases hc : (st.info anc.pid).is_candidate
  · simp [hc, RState.setInfo, RState.getInfo]
  · simp only [Bool.not_eq_true] at hc
    simp [hc, RState.setInfo, RState.getInfo]

/-- A propagation step does not change bylines or detached subtrees. -/
theorem propagateStep_frame (s : Frac) (st : RState) (lvl : Nat)
    (anc : PathE) :
    (propagateStep s st (lvl, anc)).byline = st.byline ∧
      (propagateStep s st (lvl, anc)).removedT = st.removedT := by
  unfold propagateStep
  by_cases hc : (st.info anc.pid).is_candidate
  · simp [hc, RState.setInfo, RState.getInfo]
  · simp only [Bool.not_eq_true] at hc
    simp [hc, RState.setInfo, RState.getInfo]

/-- C5: for a node bubbled with an element parent (nonempty ancestor path)
and text_len at least 25, the raw score is
1 + commas + min(floor((text_len + link_len) / 100), 3), and score
propagation adds the quotients s, s/2, s/6 to the content scores of the
first three ancestors, flags each of them as a candidate, and appends to
the candidate list exactly those among them that were not flagged before,
in order; a node with no element parent or with text_len below 25 is
skipped. -/
theorem c5_scoring (st : RState) (n : Node) (a b c : PathE)
    (rest : List PathE) (hab : a.pid ≠ b.pid) (hac : a.pid ≠ c.pid)
    (hbc : b.pid ≠ c.pid) :
    (calculateContentScore st n [] = none ∧ scoreNode st n [] = st) ∧
    ((st.getInfo n.nid).text_len < 25 →
      scoreNode st n (a :: b :: c :: rest) = st) ∧
    (25 ≤ (st.getInfo n.nid).text_len →
      calculateContentScore st n (a :: b :: c :: rest) =
        some (Frac.ofNat (1 + (st.getInfo n.nid).commas +
          min (((st.getInfo n.nid).text_len +
            (st.getInfo n.nid).link_len) / 100) 3)) ∧
      (let s := Frac.ofNat (1 + (st.getInfo n.nid).commas +
          min (((st.getInfo n.nid).text_len +
            (st.getInfo n.nid).link_len) / 100) 3)
       let st2 := scoreNode st n (a :: b :: c :: rest)
       (st2.getInfo a.pid).content_score.toRat =
          (st.getInfo a.pid).content_score.toRat + s.toRat ∧
       (st2.getInfo b.pid).content_score.toRat =
          (st.getInfo b.pid).content_score.toRat + s.toRat / 2 ∧
       (st2.getInfo c.pid).content_score.toRat =
          (st.getInfo c.pid).content_score.toRat + s.toRat / 6 ∧
       (st2.getInfo a.pid).is_candidate = true ∧
       (st2.getInfo b.pid).is_candidate = true ∧
       (st2.getInfo c.pid).is_candidate = true ∧
       st2.candidates = st.candidates ++
         (if (st.getInfo a.pid).is_candidate then []
           else [⟨a.pid, a.ptag, a.pattrs⟩]) ++
         (if (st.getInfo b.pid).is_candidate then []
           else [⟨b.pid, b.ptag, b.pattrs⟩]) ++
         (if (st.getInfo c.pid).is_candidate then []
           else [⟨c.pid, c.ptag, c.pattrs⟩]))) := by
  refine ⟨⟨rfl, rfl⟩, ?_, ?_⟩
  · intro hlt
    unfold scoreNode calculateContentScore
    simp only [if_pos hlt]
  · intro hge
    have hnot : ¬((st.getInfo n.nid).text_len < 25) := by omega
    constructor
    · unfold calculateContentScore
      simp only [if_neg hnot]
    · unfold scoreNode calculateContentScore
      simp only [if_neg hnot]
      unfold propagateScore
      simp only [List.take, List.enum, List.enumFrom, List.foldl]
      refine ?_
      generalize hsv : Frac.ofNat (1 + (st.getInfo n.nid).commas +
        min (((st.getInfo n.nid).text_len +
          (st.getInfo n.nid).link_len) / 100) 3) = s
      have h1self := propagateStep_self s st 0 a
      have h1other := propagateStep_other s st 0 a
      have h1cands := propagateStep_cands s st 0 a
      have h2self := propagateStep_self s (propagateStep s st (0, a)) 1 b
      have h2other := propagateStep_other s (propagateStep s st (0, a)) 1 b
      have h2cands := propagateStep_cands s (propagateStep s st (0, a)) 1 b
      have h3self := propagateStep_self s
        (propagateStep s (propagateStep s st (0, a)) (1, b)) 2 c
      have h3other := propagateStep_other s
        (propagateStep s (propagateStep s st (0, a)) (1, b)) 2 c
      have h3cands := propagateStep_cands s
        (propagateStep s (propagateStep s st (0, a)) (1, b)) 2 c
      have hinfo_b1 : (propagateStep s st (0, a)).getInfo b.pid =
          st.getInfo b.pid := h1other b.pid (by omega)
      have hinfo_c1 : (propagateStep s st (0, a)).getInfo c.pid =
          st.getInfo c.pid := h1other c.pid (by omega)
      have hinfo_c2 :
          (propagateStep s (propagateStep s st (0, a)) (1, b)).getInfo c.pid =
            st.getInfo c.pid := by
        rw [h2other c.pid (by omega), hinfo_c1]
      have hinfo_a2 :
          (propagateStep s (propagateStep s st (0, a)) (1, b)).getInfo a.pid =
            (propagateStep s st (0, a)).getInfo a.pid :=
        h2other a.pid (by omega)
      have hdiv0 : (if (0 : Nat) = 0 then (1 : Frac)
          else if (0 : Nat) = 1 then 2 else 3 * Frac.ofNat 0) = 1 := by
        norm_num
      have hdiv1 : (if (1 : Nat) = 0 then (1 : Frac)
          else if (1 : Nat) = 1 then 2 else 3 * Frac.ofNat 1) = 2 := by
        norm_num
      have hdiv2 : (if (2 : Nat) = 0 then (1 : Frac)
          else if (2 : Nat) = 1 then 2 else 3 * Frac.ofNat 2) =
            3 * Frac.ofNat 2 := by
        norm_num
      rw [hdiv0] at h1self
      rw [hdiv1] at h2self
      rw [hdiv2] at h3self
      have hone : ((1 : Frac)).num ≠ 0 := by decide
      have htwo : ((2 : Frac)).num ≠ 0 := by decide
      have hsix : ((3 : Frac) * Frac.ofNat 2).num ≠ 0 := by decide
      refine ⟨?_, ?_, ?_, ?_, ?_, ?_, ?_⟩
      · rw [h3other a.pid (by omega), hinfo_a2, h1self.1, Frac.toRat_add,
          Frac.toRat_div _ _ hone, Frac.toRat_one, div_one]
      · rw [h3other b.pid (by omega), h2self.1, hinfo_b1, Frac.toRat_add,
          Frac.toRat_div _ _ htwo, Frac.toRat_two]
      · rw [h3self.1, hinfo_c2, Frac.toRat_add,
          Frac.toRat_div _ _ hsix, Frac.toRat_level2]
      · rw [h3other a.pid (by omega), hinfo_a2, h1self.2]
      · rw [h3other b.pid (by omega), h2self.2]
      · exact h3self.2
      · rw [h3cands, h2cands, h1cands, hinfo_c2, hinfo_b1]

/-- A state with one scored node for the C5 witness. -/
def c5st : RState :=
  ⟨fun j => if j = 0 then { text_len := 30 } else {}, [], none, [], 10⟩

def c5n : Node := Node.elem 0 "p" [] []

def c5a : PathE := ⟨1, "div", []⟩

def c5b : PathE := ⟨2, "body", []⟩

def c5c : PathE := ⟨3, "html", []⟩

/-- C5, witness: a p with 30 characters of text and three element ancestors
feeds the characterization; its direct parent ends up flagged as a
candidate. -/
theorem c5_scoring_witness :
    25 ≤ (c5st.getInfo c5n.nid).text_len ∧
      ((scoreNode c5st c5n [c5a, c5b, c5c]).getInfo c5a.pid).is_candidate =
        true := by
  have h := c5_scoring c5st c5n c5a c5b c5c [] (by decide) (by decide)
    (by decide)
  exact ⟨by decide, ((h.2.2 (by decide)).2).2.2.2.1⟩

/-! ## Claim C6 -/

theorem Frac.lt_def (x y : Frac) :
    (x < y) ↔ (x.num * y.den < y.num * x.den) := Iff.rfl

/-- The link density comparison against one fifth, under the walk invariant
that link length never exceeds text length (so a zero denominator means a
zero numerator, NaN, and a false comparison). -/
theorem fgt_fifth (link text : Nat) (h : link ≤ text) :
    ((fdiv link text).fgt ((1 : Frac) / 5) = true) ↔ text < 5 * link := by
  unfold fdiv
  by_cases ht : text = 0
  · have hl : link = 0 := by omega
    subst ht
    subst hl
    simp [FDiv.fgt]
  · rw [dif_neg ht]
    simp only [FDiv.fgt, decide_eq_true_eq]
    rw [Frac.lt_def]
    have h1 : ((1 : Frac) / 5).num = 1 := by decide
    have h2 : ((1 : Frac) / 5).den = 5 := by decide
    rw [h1, h2]
    simp only [decide_eq_true_eq]
    constructor
    · intro hc
      exact_mod_cast (by omega : (text : Int) < 5 * link)
    · intro hc
      omega

/-- The link density comparison against one half, under the same
invariant. -/
theorem fgt_half (link text : Nat) (h : link ≤ text) :
    ((fdiv link text).fgt ((1 : Frac) / 2) = true) ↔ text < 2 * link := by
  unfold fdiv
  by_cases ht : text = 0
  · have hl : link = 0 := by omega
    subst ht
    subst hl
    simp [FDiv.fgt]
  · rw [dif_neg ht]
    simp only [FDiv.fgt, decide_eq_true_eq]
    rw [Frac.lt_def]
    have h1 : ((1 : Frac) / 2).num = 1 := by decide
    have h2 : ((1 : Frac) / 2).den = 2 := by decide
    rw [h1, h2]
    simp only [decide_eq_true_eq]
    constructor
    · intro hc
      exact_mod_cast (by omega : (text : Int) < 2 * link)
    · intro hc
      omega

/-- The paragraph to image quotient below one half, guarded by more than
one image (so the denominator is positive and the quotient finite). -/
theorem flt_half_guarded (p img : Nat) :
    ((decide (1 < img) && (fdiv p img).flt ((1 : Frac) / 2)) = true) ↔
      (1 < img ∧ 2 * p < img) := by
  by_cases himg : 1 < img
  · have hnz : ¬(img = 0) := by omega
    unfold fdiv
    rw [dif_neg hnz]
    simp only [FDiv.flt, decide_eq_true_eq, Bool.and_eq_true, himg,
      true_and, true_iff, and_iff_right_iff_imp, iff_true_intro himg]
    rw [Frac.lt_def]
    have h1 : ((1 : Frac) / 2).num = 1 := by decide
    have h2 : ((1 : Frac) / 2).den = 2 := by decide
    rw [h1, h2]
    constructor
    · intro hc
      exact_mod_cast (by push_cast at hc ⊢; omega : (2 * p : Int) < img)
    · intro hc
      push_cast
      omega
  · simp [himg]

/-- Reduction of conditional acceptability on an element whose tag falls in
one of the two checked groups. -/
theorem isCondAcceptable_elem (w : Bool) (i : Nat) (t : String)
    (a : List (String × String)) (cs : List Node) (info : NodeInfo)
    (isL : Bool)
    (hL : (if ["form", "fieldset", "table", "div"].contains t then
        some false
      else if ["ul", "ol"].contains t then some true else none) =
      some isL) :
    isCondAcceptable w (Node.elem i t a cs) info =
      (if (if w then classScoreOf a else 0) < 0 then false
       else if 10 ≤ info.commas then true
       else
         !((decide (1 < info.img_count) &&
             (fdiv info.p_count info.img_count).flt (1/2)) ||
           (!isL && decide (info.p_count + 100 < info.li_count)) ||
           (decide (info.p_count < info.input_count * 3)) ||
           (!isL && decide (info.text_len < 25) &&
             (decide (info.img_count = 0) ||
               decide (2 < info.img_count))) ||
           (!isL && decide ((if w then classScoreOf a else 0) < 25) &&
             (fdiv info.link_len info.text_len).fgt (1/5)) ||
           (decide (25 ≤ (if w then classScoreOf a else 0)) &&
             (fdiv info.link_len info.text_len).fgt (1/2)) ||
           ((decide (info.embed_count = 1) &&
             decide (info.text_len < 75)) ||
             decide (1 < info.embed_count)))) := by
  simp only [isCondAcceptable]
  rw [hL]

theorem c6core (w : Bool) (i : Nat) (t : String)
    (a : List (String × String)) (cs : List Node) (info : NodeInfo)
    (isL : Bool)
    (hL : (if ["form", "fieldset", "table", "div"].contains t then
        some false
      else if ["ul", "ol"].contains t then some true else none) =
      some isL)
    (hlink : info.link_len ≤ info.text_len) :
    ((if w then classScoreOf a else 0) < 0 →
        isCondAcceptable w (Node.elem i t a cs) info = false) ∧
    (¬(if w then classScoreOf a else 0) < 0 → 10 ≤ info.commas →
        isCondAcceptable w (Node.elem i t a cs) info = true) ∧
    (¬(if w then classScoreOf a else 0) < 0 → info.commas < 10 →
        (isCondAcceptable w (Node.elem i t a cs) info = false ↔
          (1 < info.img_count ∧ 2 * info.p_count < info.img_count) ∨
          (isL = false ∧ info.p_count + 100 < info.li_count) ∨
          info.p_count < info.input_count * 3 ∨
          ((isL = false ∧ info.text_len < 25) ∧
            (info.img_count = 0 ∨ 2 < info.img_count)) ∨
          ((isL = false ∧ (if w then classScoreOf a else 0) < 25) ∧
            info.text_len < 5 * info.link_len) ∨
          (25 ≤ (if w then classScoreOf a else 0) ∧
            info.text_len < 2 * info.link_len) ∨
          ((info.embed_count = 1 ∧ info.text_len < 75) ∨
            1 < info.embed_count))) ∧
    (info.text_len = 0 →
        (fdiv info.link_len info.text_len).fgt ((1 : Frac) / 5) = false ∧
        (fdiv info.link_len info.text_len).fgt ((1 : Frac) / 2) = false) := by
  have hred := isCondAcceptable_elem w i t a cs info isL hL
  have hnot : ∀ b : Bool, (((!b) = false) ↔ (b = true)) := by decide
  have hne : ∀ b : Bool, (((!b) = true) ↔ (b = false)) := by decide
  refine ⟨?_, ?_, ?_, ?_⟩
  · intro h
    rw [hred, if_pos h]
  · intro h hc
    rw [hred, if_neg h, if_pos hc]
  · intro h hc
    rw [hred, if_neg h, if_neg (by omega)]
    rw [hnot]
    simp only [Bool.or_eq_true]
    rw [flt_half_guarded]
    simp only [Bool.and_eq_true, decide_eq_true_eq, hne]
    rw [fgt_fifth _ _ hlink, fgt_half _ _ hlink]
    simp only [Bool.or_eq_true, decide_eq_true_eq, or_assoc]
  · intro h0
    have hl0 : info.link_len = 0 := by omega
    rw [h0, hl0]
    exact ⟨rfl, rfl⟩

/-- C6: for an element whose tag is form, fieldset, table, div, ul or ol, a
negative class score is unacceptable; otherwise ten or more commas is
acceptable; otherwise unacceptability is exactly the disjunction of the
seven numeric predicates; and zero text length (which forces zero link
length under the walk invariant) makes both link density comparisons
false. -/
theorem c6_conditional (w : Bool) (i : Nat) (t : String)
    (a : List (String × String)) (cs : List Node) (info : NodeInfo)
    (ht : t = "form" ∨ t = "fieldset" ∨ t = "table" ∨ t = "div" ∨
      t = "ul" ∨ t = "ol")
    (hlink : info.link_len ≤ info.text_len) :
    ((if w then classScoreOf a else 0) < 0 →
        isCondAcceptable w (Node.elem i t a cs) info = false) ∧
    (¬(if w then classScoreOf a else 0) < 0 → 10 ≤ info.commas →
        isCondAcceptable w (Node.elem i t a cs) info = true) ∧
    (¬(if w then classScoreOf a else 0) < 0 → info.commas < 10 →
        (isCondAcceptable w (Node.elem i t a cs) info = false ↔
          (1 < info.img_count ∧ 2 * info.p_count < info.img_count) ∨
          (["ul", "ol"].contains t = false ∧
            info.p_count + 100 < info.li_count) ∨
          info.p_count < info.input_count * 3 ∨
          ((["ul", "ol"].contains t = false ∧ info.text_len < 25) ∧
            (info.img_count = 0 ∨ 2 < info.img_count)) ∨
          ((["ul", "ol"].contains t = false ∧
              (if w then classScoreOf a else 0) < 25) ∧
            info.text_len < 5 * info.link_len) ∨
          (25 ≤ (if w then classScoreOf a else 0) ∧
            info.text_len < 2 * info.link_len) ∨
          ((info.embed_count = 1 ∧ info.text_len < 75) ∨
            1 < info.embed_count))) ∧
    (info.text_len = 0 →
        (fdiv info.link_len info.text_len).fgt ((1 : Frac) / 5) = false ∧
        (fdiv info.link_len info.text_len).fgt ((1 : Frac) / 2) = false) := by
  obtain ht | ht | ht | ht | ht | ht := ht <;> subst ht <;>
    exact c6core w i _ a cs info _ rfl hlink

/-- C6, witness: a div whose class attribute matches the negative pattern
sidebar scores minus 25 and is rejected outright. -/
theorem c6_conditional_witness :
    NodeInfo.zero.link_len ≤ NodeInfo.zero.text_len ∧
      isCondAcceptable true (Node.elem 0 "div" [("class", "sidebar")] [])
        NodeInfo.zero = false := by
  have h := c6_conditional true 0 "div" [("class", "sidebar")] []
    NodeInfo.zero (Or.inr (Or.inr (Or.inr (Or.inl rfl)))) (by decide)
  exact ⟨by decide, h.1 (by decide)⟩

/-! ## Claim C7 -/

/-- The walk invariant: every record in the cache has at most as much link
text as total text. -/
def LinkInv (st : RState) : Prop :=
  ∀ j, (st.info j).link_len ≤ (st.info j).text_len

theorem bubbleText_inv (st : RState) (path : List PathE) (s : String)
    (h : LinkInv st) : LinkInv (bubbleText st path s) := by
  cases path with
  | nil => simpa [bubbleText] using h
  | cons parent rest =>
    intro j
    have h1 := h parent.pid
    have h2 := h j
    simp only [bubbleText, RState.updInfo, RState.setInfo, RState.getInfo]
    by_cases hj : j = parent.pid <;> simp [hj] <;> omega

theorem tagBump_link (n : Node) (pi0 : NodeInfo) :
    (tagBump n pi0).link_len = pi0.link_len ∧
      (tagBump n pi0).text_len = pi0.text_len := by
  rcases n with ⟨i, t, a, cs⟩ | ⟨i, s⟩ | i | i | i <;>
    simp only [tagBump] <;>
    (try split_ifs) <;>
    simp

theorem propagateInfo_inv (st : RState) (n : Node) (path : List PathE)
    (h : LinkInv st) : LinkInv (propagateInfo st n path) := by
  cases path with
  | nil => simpa [propagateInfo] using h
  | cons parent rest =>
    intro j
    have h1 := h parent.pid
    have h2 := h n.nid
    have h3 := h j
    have hb := tagBump_link n (st.getInfo parent.pid)
    simp only [propagateInfo, RState.setInfo, RState.getInfo] at *
    by_cases hj : j = parent.pid
    · simp [hj, hb.1, hb.2]; (try split_ifs) <;> omega
    · simp only [if_neg hj]
      omega

theorem propagateStep_inv (c : Frac) (st : RState) (la : Nat × PathE)
    (h : LinkInv st) : LinkInv (propagateStep c st la) := by
  intro j
  have h1 := h la.2.pid
  have h2 := h j
  simp only [propagateStep, RState.setInfo, RState.getInfo]
  by_cases hc : (st.info la.2.pid).is_candidate <;>
    by_cases hj : j = la.2.pid <;>
    simp_all

theorem propagateScore_foldl_inv (c : Frac) :
    ∀ (l : List (Nat × PathE)) (st : RState), LinkInv st →
      LinkInv (l.foldl (propagateStep c) st)
  | [], _, h => h
  | la :: rest, st, h =>
    propagateScore_foldl_inv c rest (propagateStep c st la)
      (propagateStep_inv c st la h)

theorem scoreNode_inv (st : RState) (n : Node) (path : List PathE)
    (h : LinkInv st) : LinkInv (scoreNode st n path) := by
  rw [scoreNode]
  cases calculateContentScore st n path with
  | none => exact h
  | some c => exact propagateScore_foldl_inv c _ st h

theorem setInfo_flag_inv (st : RState) (i : Nat) (f : NodeInfo → NodeInfo)
    (hf : ∀ v : NodeInfo, (f v).link_len = v.link_len ∧
      (f v).text_len = v.text_len)
    (h : LinkInv st) : LinkInv (st.updInfo i f) := by
  intro j
  simp only [RState.updInfo, RState.setInfo, RState.getInfo]
  by_cases hj : j = i <;> simp [hj]
  · rcases hf (st.info i) with ⟨hl, ht⟩
    rw [hl, ht]
    exact h i
  · exact h j

theorem bubbleElement_inv (cfg : Config) (st : RState) (path : List PathE)
    (n : Node) (h : LinkInv st) :
    LinkInv (bubbleElement cfg st path n).1 := by
  simp only [bubbleElement]
  split_ifs <;>
    first
      | exact scoreNode_inv _ n path (propagateInfo_inv st n path h)
      | exact propagateInfo_inv st n path h
      | (cases path with
          | nil =>
            exact setInfo_flag_inv _ n.nid
              (fun i => { i with is_candidate := false })
              (fun v => ⟨rfl, rfl⟩)
              (scoreNode_inv _ n _ (propagateInfo_inv st n _ h))
          | cons parent rest =>
            exact setInfo_flag_inv _ parent.pid
              (fun i => { i with is_shabby := true })
              (fun v => ⟨rfl, rfl⟩)
              (setInfo_flag_inv _ n.nid
                (fun i => { i with is_candidate := false })
                (fun v => ⟨rfl, rfl⟩)
                (scoreNode_inv _ n _ (propagateInfo_inv st n _ h))))
      | (cases path with
          | nil =>
            exact setInfo_flag_inv _ n.nid
              (fun i => { i with is_candidate := false })
              (fun v => ⟨rfl, rfl⟩)
              (propagateInfo_inv st n _ h)
          | cons parent rest =>
            exact setInfo_flag_inv _ parent.pid
              (fun i => { i with is_shabby := true })
              (fun v => ⟨rfl, rfl⟩)
              (setInfo_flag_inv _ n.nid
                (fun i => { i with is_candidate := false })
                (fun v => ⟨rfl, rfl⟩)
                (propagateInfo_inv st n _ h)))

theorem captureChild_info (cfg : Config) (st : RState) (c : Node) :
    (captureChild cfg st c).1.info = st.info := by
  rcases c with ⟨i, t, a, cs⟩ | ⟨i, s⟩ | i | i | i <;>
    simp only [captureChild] <;>
    (try split) <;>
    (try split_ifs) <;>
    rfl

theorem captureChildren_info (cfg : Config) :
    ∀ (cs : List Node) (st : RState),
      (captureChildren cfg st cs).1.info = st.info
  | [], st => rfl
  | c :: cs, st => by
    rw [captureChildren]
    rw [captureChildren_info cfg cs (captureChild cfg st c).1]
    exact captureChild_info cfg st c

theorem walk_inv (cfg : Config) :
    ∀ fuel : Nat,
      (∀ path st n, LinkInv st → LinkInv (walkNodeF cfg path fuel st n).1) ∧
      (∀ path st acc l, LinkInv st →
        LinkInv (walkChildrenF cfg path fuel st acc l).1) := by
  intro fuel
  induction fuel with
  | zero =>
    constructor
    · intro path st n h
      exact h
    · intro path st acc l h
      exact h
  | succ fuel ih =>
    constructor
    · intro path st n h
      match n with
      | Node.elem i t a cs =>
        rw [walkNodeF]
        have hcap : LinkInv (captureChildren cfg st cs).1 := by
          intro j
          rw [captureChildren_info cfg cs st]
          exact h j
        have hsub := ih.2 (⟨i, t, a⟩ :: path) (captureChildren cfg st cs).1
          [] (captureChildren cfg st cs).2 hcap
        have hbub := bubbleElement_inv cfg _ path
          (Node.elem i t a (walkChildrenF cfg (⟨i, t, a⟩ :: path) fuel
            (captureChildren cfg st cs).1 [] (captureChildren cfg st cs).2).2)
          hsub
        split
        · next st3 n3 heq => exact (congrArg Prod.fst heq) ▸ hbub
        · next st3 heq => exact (congrArg Prod.fst heq) ▸ hbub
      | Node.text i s2 =>
        rw [walkNodeF]
        exact bubbleText_inv st path s2 h
      | Node.comment i => exact h
      | Node.fragment i => exact h
      | Node.doctype i => exact h
    · intro path st acc l h
      match l with
      | [] =>
        cases fuel <;> exact h
      | c :: rem =>
        rw [walkChildrenF]
        have hn := ih.1 path st c h
        simp only []
        split
        · exact ih.2 path _ acc rem (fun j => hn j)
        · exact ih.2 path _ _ rem hn
  
/-- C7: link length never exceeds text length - the property is preserved
by the text bubbling step and by info propagation (where an a element adds
its whole text length to the link length of its parent), and holds for
every record after the walk completes. -/
theorem c7_invariant :
    (∀ st path s, LinkInv st → LinkInv (bubbleText st path s)) ∧
    (∀ st n path, LinkInv st → LinkInv (propagateInfo st n path)) ∧
    (∀ (st : RState) (n : Node) (parent : PathE) (rest : List PathE),
      n.tagOf = "a" →
      ((propagateInfo st n (parent :: rest)).getInfo parent.pid).link_len =
        (st.getInfo parent.pid).link_len + (st.getInfo n.nid).text_len ∧
      ((propagateInfo st n (parent :: rest)).getInfo parent.pid).text_len =
        (st.getInfo parent.pid).text_len + (st.getInfo n.nid).text_len) ∧
    (∀ cfg t, LinkInv (runWalk cfg t).1) := by
  refine ⟨bubbleText_inv, propagateInfo_inv, ?_, ?_⟩
  · intro st n parent rest ha
    rcases n with ⟨i2, t2, a2, cs2⟩ | ⟨i2, s2⟩ | i2 | i2 | i2 <;>
      simp only [Node.tagOf] at ha
    · subst ha
      simp [propagateInfo, RState.setInfo, RState.getInfo, Node.tagOf,
        Node.nid]
      exact tagBump_link _ _
    · simp_all
    · simp_all
    · simp_all
    · simp_all
  · intro cfg t
    have h0 : LinkInv (initState t) := fun j => Nat.le_refl 0
    exact (walk_inv cfg (3 * pw t + 1)).1 [] (initState t) t h0

/-- C7, witness: the invariant holds of the fresh state and is carried to
the walked state of the degraded example. -/
theorem c7_invariant_witness :
    LinkInv (initState exDegraded) ∧
      LinkInv (bubbleText (initState exDegraded) [⟨0, "body", []⟩]
        "one, two") ∧
      LinkInv (runWalk cfg0 exDegraded).1 := by
  have h0 : LinkInv (initState exDegraded) := fun j => Nat.le_refl 0
  exact ⟨h0, c7_invariant.1 (initState exDegraded) [⟨0, "body", []⟩]
    "one, two" h0, c7_invariant.2.2.2 cfg0 exDegraded⟩

/-! ## Claim C8 -/

set_option maxRecDepth 100000 in
/-- C8, counterexample: on the rescore example the first run selects the
candidate with identity 1, but running the engine again on the produced
tree selects a different element (a renamed div with the fresh identity
14): selection is not idempotent, because the first run keeps phantom
score contributions from pruned widget divs while the second run starts
from clean records. -/
theorem c8_counterexample :
    (readify cfg0 (readify cfg0 exRescore)).nid ≠
      (readify cfg0 exRescore).nid := by decide

/-- C8, amended: the second run returns the first run root unchanged in
identity whenever the second walk registers no candidate; full idempotence
fails (see the counterexample) because scores are not replayed
identically. -/
theorem c8_amended (cfg : Config) (t : Node)
    (h : (runWalk cfg (readify cfg t)).1.candidates = []) :
    (readify cfg (readify cfg t)).nid = (readify cfg t).nid := by
  generalize hu : readify cfg t = u at h ⊢
  rw [readify]
  simp only [h, List.isEmpty_nil, if_true]
  rw [runWalk, walkNode]
  exact walkNodeF_nid cfg [] (3 * pw u + 1) (initState u) u

/-- C8, amended, witness: the degraded example registers no candidate on
the second walk, so the second run keeps the first run root. -/
theorem c8_amended_witness :
    (runWalk cfg0 (readify cfg0 exDegraded)).1.candidates = [] ∧
      (readify cfg0 (readify cfg0 exDegraded)).nid =
        (readify cfg0 exDegraded).nid :=
  ⟨by decide, c8_amended cfg0 exDegraded (by decide)⟩

/-! ## Claim C9 -/

theorem getAttr_cleanAttrs (name : String) (h : name ≠ "style") :
    ∀ attrs, getAttr (cleanAttrs attrs) name = getAttr attrs name := by
  intro attrs
  induction attrs with
  | nil => rfl
  | cons p rest ih =>
    by_cases hp : p.1 = "style" <;> by_cases hm : p.1 = name <;>
      simp_all [cleanAttrs, getAttr, List.filter_cons, List.find?_cons]

theorem getAttr_fixRelativeUrls (join : String → Option String)
    (name : String) (h : name = "href" ∨ name = "src") :
    ∀ attrs, getAttr (fixRelativeUrls join attrs) name =
      (getAttr attrs name).map (fixUrl join) := by
  intro attrs
  induction attrs with
  | nil => rfl
  | cons p rest ih =>
    by_cases h1 : p.1 = "href" <;> by_cases h2 : p.1 = "src" <;>
      by_cases hm : p.1 = name <;>
      rcases h with h | h <;>
      simp_all [fixRelativeUrls, getAttr, List.map_cons, List.find?_cons]

/-- A node kept by the bubble stage is the same element with the attribute
pipeline applied: the style attribute dropped when configured, and the
relative URL fix applied for a and img when a base join is configured. -/
theorem bubbleElement_some_node (cfg : Config) (st : RState)
    (path : List PathE) (n : Node) (m : Node)
    (h : (bubbleElement cfg st path n).2 = some m) :
    m = Node.elem n.nid n.tagOf
      (match cfg.base_url with
       | some join =>
         if n.tagOf == "a" || n.tagOf == "img" then
           fixRelativeUrls join
             (if cfg.clean_attributes then cleanAttrs n.attrsOf
              else n.attrsOf)
         else
           (if cfg.clean_attributes then cleanAttrs n.attrsOf
            else n.attrsOf)
       | none =>
         (if cfg.clean_attributes then cleanAttrs n.attrsOf
          else n.attrsOf)) n.childrenOf := by
  simp only [bubbleElement, apply_ite Prod.snd] at h
  split_ifs at h <;>
    first
      | exact Option.noConfusion h
      | (rw [← Option.some.inj h]; simp_all)

/-- C9: the fix of a single URL keeps empty, hash and scheme-qualified
values and otherwise joins with fallback to the original; with no base URL
the bubble stage keeps every href and src value of a kept node; with a
base URL the values of an a or img node are mapped through the fix, and
every other tag keeps its values. -/
theorem c9_urls :
    (∀ (join : String → Option String) (url : String), fixUrl join url =
      if url.isEmpty || protocolMatch url || url.toList.head? == some '#'
      then url
      else (join url).getD url) ∧
    (∀ (cfg : Config) (st : RState) (path : List PathE) (n m : Node),
      cfg.base_url = none →
      (bubbleElement cfg st path n).2 = some m →
      getAttr m.attrsOf "href" = getAttr n.attrsOf "href" ∧
      getAttr m.attrsOf "src" = getAttr n.attrsOf "src") ∧
    (∀ (cfg : Config) (st : RState) (path : List PathE) (n m : Node)
      (join : String → Option String),
      cfg.base_url = some join →
      (n.tagOf = "a" ∨ n.tagOf = "img") →
      (bubbleElement cfg st path n).2 = some m →
      getAttr m.attrsOf "href" =
        (getAttr n.attrsOf "href").map (fixUrl join) ∧
      getAttr m.attrsOf "src" =
        (getAttr n.attrsOf "src").map (fixUrl join)) ∧
    (∀ (cfg : Config) (st : RState) (path : List PathE) (n m : Node)
      (join : String → Option String),
      cfg.base_url = some join →
      n.tagOf ≠ "a" → n.tagOf ≠ "img" →
      (bubbleElement cfg st path n).2 = some m →
      getAttr m.attrsOf "href" = getAttr n.attrsOf "href" ∧
      getAttr m.attrsOf "src" = getAttr n.attrsOf "src") := by
  refine ⟨?_, ?_, ?_, ?_⟩
  · intro join url
    rw [fixUrl]
    split_ifs
    · rfl
    · cases join url <;> rfl
  · intro cfg st path n m hbase h
    rw [bubbleElement_some_node cfg st path n m h]
    simp only [Node.attrsOf, hbase]
    split_ifs with hc
    · exact ⟨getAttr_cleanAttrs "href" (by decide) n.attrsOf,
        getAttr_cleanAttrs "src" (by decide) n.attrsOf⟩
    · exact ⟨rfl, rfl⟩
  · intro cfg st path n m join hbase htag h
    rw [bubbleElement_some_node cfg st path n m h]
    have ht : (n.tagOf == "a" || n.tagOf == "img") = true := by
      rcases htag with h1 | h1 <;> simp [h1]
    simp only [Node.attrsOf, hbase, ht, if_pos]
    split_ifs with hc <;>
      simp only [getAttr_fixRelativeUrls join "href" (Or.inl rfl),
        getAttr_fixRelativeUrls join "src" (Or.inr rfl),
        getAttr_cleanAttrs "href" (by decide),
        getAttr_cleanAttrs "src" (by decide)] <;>
      exact ⟨trivial, trivial⟩
  · intro cfg st path n m join hbase h1 h2 h
    rw [bubbleElement_some_node cfg st path n m h]
    have ht : (n.tagOf == "a" || n.tagOf == "img") = false := by
      simp [h1, h2]
    simp only [Node.attrsOf, hbase, ht, Bool.false_eq_true, if_false]
    split_ifs with hc
    · exact ⟨getAttr_cleanAttrs "href" (by decide) n.attrsOf,
        getAttr_cleanAttrs "src" (by decide) n.attrsOf⟩
    · exact ⟨rfl, rfl⟩

/-- A concrete join for the C9 witness: prefix with a fixed base. -/
def join0 : String → Option String :=
  fun u => some ("http://base/" ++ u)

def cfgB : Config := { base_url := some join0 }

def c9node : Node := Node.elem 1 "a" [("href", "page.html")] []

/-- C9, witness: bubbling a kept a node under the concrete base join
resolves its relative href. -/
theorem c9_urls_witness :
    cfgB.base_url = some join0 ∧
      c9node.tagOf = "a" ∧
      getAttr
        ((Node.elem 1 "a" [("href", "http://base/page.html")] []).attrsOf)
        "href" = (getAttr c9node.attrsOf "href").map (fixUrl join0) := by
  have h := (c9_urls.2.2.1 cfgB (initState c9node) [] c9node
    (Node.elem 1 "a" [("href", "http://base/page.html")] []) join0
    rfl (Or.inl rfl) (by rfl)).1
  exact ⟨rfl, rfl, h⟩
